import Mathlib

/-!
Verification of the smartlog commit-graph core (branchless/graph.py).

The Python source is shallowly embedded as executable Lean definitions:

* Commit identifiers (OIDs, hex strings in the source) are `Nat`.
* `pygit2.Commit` objects are `Commit` records carrying the oid and the
  list of VCS parent oids; a repository's object store is a `List Commit`
  looked up by oid.
* The commit graph (a Python `dict` keyed by oid) is an association list
  `List (Nat × Node)`; Python dict insertion order is mirrored by
  appending, and dict iteration order by list order.
* Python `set`s of children oids are `List Nat` with duplicate-free
  insertion (mirroring `set.add`) in insertion order; removal is
  `List.erase`.
* The merge-base database and the event replayer are external
  collaborators, modelled as function-valued parameters.
* The breadth-first search in `find_path_to_merge_base` and the recursive
  predicate `should_hide` are given an explicit fuel parameter; Python's
  unbounded recursion/iteration corresponds to a sufficiently large fuel.
  Running out of fuel, like a Python `KeyError`/`RecursionError`, is
  modelled by `Except.error`.
-/

/-- A commit object: its oid and the oids of its VCS parents
(`commit.parent_ids` in the source). -/
structure Commit where
  oid : Nat
  parents : List Nat
deriving DecidableEq, Repr

/-- The object store: commits indexed by oid (`repo[oid]` in the source). -/
def repoLookup (repo : List Commit) (oid : Nat) : Option Commit :=
  repo.find? (fun c => c.oid = oid)

/-- Tri-state visibility as recorded by the event log. -/
inductive Vis where
  | visible
  | hidden
deriving DecidableEq, Repr

/-- The event replayer interface consumed by the graph builder
(`EventReplayer` in the source). Events themselves are opaque payloads,
modelled as `Nat`. -/
structure EventReplayer where
  getActiveOids : List Nat
  getCommitVisibility : Nat → Option Vis
  getCommitLatestEvent : Nat → Option Nat

/-- The merge-base database interface: `get_merge_base_oid` of the source. -/
def MergeBaseDb : Type := Nat → Nat → Option Nat

/-- Node contained in the smartlog commit graph (class `Node` of the
source). -/
structure Node where
  commit : Commit
  parent : Option Nat
  children : List Nat
  is_master : Bool
  is_visible : Bool
  event : Option Nat
deriving DecidableEq, Repr

/-- Graph of commits the user is working on (`CommitGraph = Dict[OidStr,
Node]` in the source), as an insertion-ordered association list. -/
abbrev CommitGraph : Type := List (Nat × Node)

/-- Dictionary lookup `graph[oid]`. -/
def lookupNode (g : CommitGraph) (oid : Nat) : Option Node :=
  (List.find? (fun kv => kv.1 = oid) g).map (fun kv => kv.2)

/-- Membership test `oid in graph`. -/
def isKey (g : CommitGraph) (oid : Nat) : Bool :=
  (lookupNode g oid).isSome

/-- The key list of the graph, in dict insertion order. -/
def keysOf (g : CommitGraph) : List Nat :=
  List.map (fun kv => kv.1) g

/-- In-place field update `graph[oid].field = ...`. -/
def updateNode (g : CommitGraph) (oid : Nat) (f : Node → Node) : CommitGraph :=
  List.map (fun kv => if kv.1 = oid then (kv.1, f kv.2) else kv) g

/-- Dictionary insertion of a fresh key (appends, as Python dicts preserve
insertion order). -/
def insertNode (g : CommitGraph) (oid : Nat) (n : Node) : CommitGraph :=
  g ++ [(oid, n)]

/-- Dictionary deletion `del graph[oid]`. -/
def eraseKey (g : CommitGraph) (oid : Nat) : CommitGraph :=
  List.filter (fun kv => kv.1 ≠ oid) g

/-- One step of the breadth-first loop of `find_path_to_merge_base`
(source lines 98-116).  The queue is FIFO: entries are popped at the
front and pushed at the back.  Each entry is a path stored in reverse
order (frontier commit first); the source stores paths forward and reads
`path[-1]`, which is the same data. Fuel bounds the number of loop
iterations; fuel exhaustion stands for a non-terminating walk. -/
def bfsPaths (repo : List Commit) (targetOid : Nat) (mb : Option Nat) :
    Nat → List (List Commit) → Option (List Commit)
  | 0, _ => none
  | _ + 1, [] => none
  | fuel + 1, [] :: rest => bfsPaths repo targetOid mb fuel rest
  | fuel + 1, (c :: p) :: rest =>
    if c.oid = targetOid then some (List.reverse (c :: p))
    else if mb = some c.oid then bfsPaths repo targetOid mb fuel rest
    else
      bfsPaths repo targetOid mb fuel
        (rest ++ List.map (fun q => q :: c :: p)
          (List.filterMap (repoLookup repo) c.parents))

/-- `find_path_to_merge_base` (source lines 69-116): find a shortest path
from `commitOid` through parents to `targetOid`, bounding every branch of
the search at the merge-base of the two commits.  Returns `none` when the
start commit is missing from the object store (a `KeyError` in Python) or
when the frontier is exhausted. -/
def find_path_to_merge_base (repo : List Commit) (mbDb : MergeBaseDb)
    (commitOid targetOid : Nat) (fuel : Nat) : Option (List Commit) :=
  match repoLookup repo commitOid with
  | none => none
  | some c => bfsPaths repo targetOid (mbDb commitOid targetOid) fuel [[c]]

/-- Resolution of the tri-state visibility to a boolean (source lines
172-176): absent or visible means visible, hidden means not visible. -/
def resolveVisibility (v : Option Vis) : Bool :=
  match v with
  | none => true
  | some Vis.visible => true
  | some Vis.hidden => false

/-- Node construction for one commit on a walked path (source lines
178-191). -/
def mkNode (replayer : EventReplayer) (mbo : Option Nat) (c : Commit) : Node :=
  { commit := c
    parent := none
    children := []
    is_master := match mbo with
      | some mb => c.oid == mb
      | none => false
    is_visible := resolveVisibility (replayer.getCommitVisibility c.oid)
    event := replayer.getCommitLatestEvent c.oid }

/-- Walk one path, materializing a node per commit, stopping at the first
commit already present in the graph (source lines 165-191). -/
def addPath (replayer : EventReplayer) (mbo : Option Nat) :
    CommitGraph → List Commit → CommitGraph
  | g, [] => g
  | g, c :: rest =>
    if isKey g c.oid then g
    else addPath replayer mbo (insertNode g c.oid (mkNode replayer mbo c)) rest

/-- Processing of a single interesting commit oid by `_walk_from_commits`
(source lines 137-163): compute the merge-base with master; if absent,
add the commit as a standalone path; otherwise find a path to the
merge-base and walk it, skipping the commit when no path is found. A
commit oid missing from the object store is skipped (Python would raise
`KeyError`). -/
def walkOne (repo : List Commit) (mbDb : MergeBaseDb) (replayer : EventReplayer)
    (masterOid : Nat) (fuel : Nat) (g : CommitGraph) (oidH : Nat) : CommitGraph :=
  match repoLookup repo oidH with
  | none => g
  | some current =>
    match mbDb current.oid masterOid with
    | none => addPath replayer none g [current]
    | some mb =>
      match find_path_to_merge_base repo mbDb current.oid mb fuel with
      | none => g
      | some path => addPath replayer (some mb) g path

/-- The `link` helper of `_walk_from_commits` (source lines 198-200):
set the child's graph parent and add the child to the parent's children
set. -/
def link (g : CommitGraph) (parentOid childOid : Nat) : CommitGraph :=
  updateNode
    (updateNode g childOid (fun n => { n with parent := some parentOid }))
    parentOid
    (fun n =>
      { n with children :=
          if childOid ∈ n.children then n.children else n.children ++ [childOid] })

/-- The linking pass of `_walk_from_commits` (source lines 202-207): for
every non-master node, link it to each of its VCS parents that is a key
of the graph.  `is_master` and `commit` are never mutated, so reading
them from the pre-pass graph matches the source's iteration over
`graph.items()`. -/
def linkAll (g : CommitGraph) : CommitGraph :=
  List.foldl
    (fun acc kv =>
      if kv.2.is_master then acc
      else
        List.foldl
          (fun a p => if isKey a p then link a p kv.1 else a)
          acc kv.2.commit.parents)
    g g

/-- `_walk_from_commits` (source lines 119-209): materialize nodes for
every interesting commit oid and link parent/child relationships. -/
def walk_from_commits (repo : List Commit) (mbDb : MergeBaseDb)
    (replayer : EventReplayer) (masterOid : Nat) (fuel : Nat)
    (commitOids : List Nat) : CommitGraph :=
  linkAll (List.foldl (walkOne repo mbDb replayer masterOid fuel) [] commitOids)

/-- Short-circuiting conjunction over a list with exception propagation:
the shape of Python `all(f(c) for c in children)` where `f` may raise. -/
def andAllE (f : Nat → Except Unit Bool) : List Nat → Except Unit Bool
  | [] => Except.ok true
  | c :: cs =>
    match f c with
    | Except.error e => Except.error e
    | Except.ok true => andAllE f cs
    | Except.ok false => Except.ok false

/-- Short-circuiting conjunction over the non-master children: the shape
of Python `all(f(c) for c in children if not graph[c].is_master)`, where
the filter itself reads `graph[c]` and may raise `KeyError`. -/
def andAllMasterE (g : CommitGraph) (f : Nat → Except Unit Bool) :
    List Nat → Except Unit Bool
  | [] => Except.ok true
  | c :: cs =>
    match lookupNode g c with
    | none => Except.error ()
    | some cn =>
      if cn.is_master then andAllMasterE g f cs
      else
        match f c with
        | Except.error e => Except.error e
        | Except.ok true => andAllMasterE g f cs
        | Except.ok false => Except.ok false

/-- The recursive predicate `should_hide` of `_hide_commits` (source
lines 224-246).  `Except.error ()` models a Python `KeyError` (oid
missing from the graph) as well as fuel exhaustion (unbounded
recursion).  The `lru_cache` memoization of the source does not change
the computed value of this pure function, only its cost, so it is not
modelled. -/
def shouldHide (g : CommitGraph) (unh : List Nat) :
    Nat → Nat → Except Unit Bool
  | 0, _ => Except.error ()
  | fuel + 1, oid =>
    if oid ∈ unh then Except.ok false
    else
      match lookupNode g oid with
      | none => Except.error ()
      | some node =>
        if node.is_master then
          if node.is_visible then andAllMasterE g (shouldHide g unh fuel) node.children
          else Except.ok false
        else
          if node.is_visible then Except.ok false
          else andAllE (shouldHide g unh fuel) node.children

/-- Python short-circuiting `all(should_hide(c) for c in children)` for a
non-master node (source lines 244-246). -/
def hideAll (g : CommitGraph) (unh : List Nat) (fuel : Nat) :
    List Nat → Except Unit Bool :=
  andAllE (shouldHide g unh fuel)

/-- Python short-circuiting `all(should_hide(c) for c in children if not
graph[c].is_master)` for a master node (source lines 236-242). -/
def hideAllMaster (g : CommitGraph) (unh : List Nat) (fuel : Nat) :
    List Nat → Except Unit Bool :=
  andAllMasterE g (shouldHide g unh fuel)

/-- Evaluation of `should_hide` over every key of the graph, in key
order, collecting the oids to hide (source line 248).  The first
`KeyError` (or fuel exhaustion) aborts the whole computation, as an
uncaught exception would. -/
def collectHideList (g : CommitGraph) (unh : List Nat) (fuel : Nat) :
    List Nat → Except Unit (List Nat)
  | [] => Except.ok []
  | k :: ks =>
    match shouldHide g unh fuel k with
    | Except.error e => Except.error e
    | Except.ok b =>
      match collectHideList g unh fuel ks with
      | Except.error e => Except.error e
      | Except.ok l => Except.ok (if b then k :: l else l)

/-- Removal of a single hidden oid (source lines 252-256): read the
node's graph parent, delete the node, and remove the oid from the
surviving parent's children set. -/
def removeOne (g : CommitGraph) (oid : Nat) : CommitGraph :=
  match lookupNode g oid with
  | none => g
  | some node =>
    let g' := eraseKey g oid
    match node.parent with
    | none => g'
    | some p =>
      if isKey g' p then
        updateNode g' p (fun n => { n with children := n.children.erase oid })
      else g'

/-- Removal of every collected oid.  The source iterates a Python set
(unordered); the removals commute, and we fix collection order. -/
def removeOids (g : CommitGraph) (oids : List Nat) : CommitGraph :=
  List.foldl removeOne g oids

/-- `_hide_commits` (source lines 212-256): remove the subtrees that are
entirely hidden, never touching oids pinned by HEAD or a local branch. -/
def hide_commits (g : CommitGraph) (branchOids : List Nat) (headOid : Nat)
    (fuel : Nat) : Except Unit CommitGraph :=
  match collectHideList g (branchOids ++ [headOid]) fuel (keysOf g) with
  | Except.error e => Except.error e
  | Except.ok l => Except.ok (removeOids g l)

/-- The repository state consumed by `make_graph`: the object store, the
oid the literal HEAD reference resolves to, and the target oids of the
local branches. -/
structure Repo where
  commits : List Commit
  headOid : Nat
  localBranchOids : List Nat

/-- `make_graph` (source lines 274-327): the graph assembler.  The
interesting oids are the replayer's active oids, all local branch tips
and HEAD; Python iterates this collection as a set, which visits each
oid once in an unspecified order — duplicate visits are no-ops (the walk
breaks immediately on a present key), so the concatenation below builds
the same graph. -/
def make_graph (repo : Repo) (mbDb : MergeBaseDb) (replayer : EventReplayer)
    (masterOid : Nat) (hideFlag : Bool) (fuel : Nat) :
    Except Unit (Nat × CommitGraph) :=
  let headOid := repo.headOid
  let branchOids := repo.localBranchOids
  let commitOids := replayer.getActiveOids ++ branchOids ++ [headOid]
  let g := walk_from_commits repo.commits mbDb replayer masterOid fuel commitOids
  if hideFlag then
    match hide_commits g branchOids headOid (g.length + 1) with
    | Except.error e => Except.error e
    | Except.ok g2 => Except.ok (headOid, g2)
  else Except.ok (headOid, g)

/-! ## Specification-level notions

The following definitions formalize vocabulary of the specification that
has no direct counterpart in the source: ancestry paths, ancestor
reachability, the true merge-base, and connected components of the
produced graph. -/

/-- `p` is an ancestry path from commit `a` to commit `b`: a non-empty
sequence of object-store commits that starts at `a`, ends at `b` and
follows parent links at each step. -/
def IsAncPath (repo : List Commit) (a b : Nat) (p : List Commit) : Prop :=
  (∀ x ∈ p, repoLookup repo x.oid = some x) ∧
  List.Chain' (fun c d => d.oid ∈ c.parents) p ∧
  p.head?.map Commit.oid = some a ∧ (p.getLast?).map Commit.oid = some b

/-- A queue entry of the breadth-first search: an ancestry path from `a`
stored in reverse order (frontier commit first). -/
def RPath (repo : List Commit) (a : Nat) (e : List Commit) : Prop :=
  (∀ x ∈ e, repoLookup repo x.oid = some x) ∧
  List.Chain' (fun x y => x.oid ∈ y.parents) e ∧
  (e.getLast?).map Commit.oid = some a

/-- FIFO queue invariant of the breadth-first search: entry lengths are
nondecreasing and spread over at most two consecutive values. -/
def QLenInv (q : List (List Commit)) : Prop :=
  List.Pairwise (fun x y => x.length ≤ y.length ∧ y.length ≤ x.length + 1) q

/-- Bounded ancestor-or-equal reachability over the object store's parent
links; for `fuel` at least the number of commits this is plain
reachability. -/
def reachesB (repo : List Commit) : Nat → Nat → Nat → Bool
  | 0, a, b => a == b
  | fuel + 1, a, b =>
    a == b ||
      (match repoLookup repo a with
       | none => false
       | some c => c.parents.any (fun p => reachesB repo fuel p b))

/-- `m` is the true merge-base (nearest common ancestor) of `a` and `b`:
a common ancestor of which every common ancestor in the store is an
ancestor. -/
def isTrueMergeBaseB (repo : List Commit) (fuel : Nat) (m a b : Nat) : Bool :=
  reachesB repo fuel a m && reachesB repo fuel b m &&
    (repo.map Commit.oid).all
      (fun c => !(reachesB repo fuel a c && reachesB repo fuel b c) ||
        reachesB repo fuel m c)

/-- Two present nodes are adjacent when either records the other as its
graph parent or holds the other in its children set. -/
def adjacentB (g : CommitGraph) (a b : Nat) : Bool :=
  match lookupNode g a, lookupNode g b with
  | some na, some nb =>
    na.parent == some b || nb.parent == some a ||
      na.children.contains b || nb.children.contains a
  | _, _ => false

/-- One closure step of a component: add every key adjacent to the set. -/
def compStep (g : CommitGraph) (s : List Nat) : List Nat :=
  s ++ List.filter
    (fun k => !(s.contains k) && s.any (fun j => adjacentB g k j)) (keysOf g)

/-- Iterated component closure. -/
def compIter (g : CommitGraph) : Nat → List Nat → List Nat
  | 0, s => s
  | fuel + 1, s => compIter g fuel (compStep g s)

/-- `a` and `b` lie in the same connected component of the graph (for
`fuel` at least the number of keys). -/
def connectedB (g : CommitGraph) (fuel : Nat) (a b : Nat) : Bool :=
  (compIter g fuel [a]).contains b

/-- Every identifier stored in a children set is a key of the graph. -/
def ChildrenClosed (g : CommitGraph) : Prop :=
  ∀ k n, lookupNode g k = some n → ∀ c ∈ n.children, isKey g c = true

/-- Children sets hold no duplicates (they are Python sets). -/
def ChildrenNodup (g : CommitGraph) : Prop :=
  ∀ k n, lookupNode g k = some n → n.children.Nodup

/-- Every recorded graph parent is present and holds the child in its
children set (bidirectional consistency). -/
def ParentLinked (g : CommitGraph) : Prop :=
  ∀ k n p, lookupNode g k = some n → n.parent = some p →
    ∃ np, lookupNode g p = some np ∧ k ∈ np.children

/-- Every node still carries the construction-time link fields: no
parent and no children.  This holds of the walk output before the
linking pass. -/
def WalkFresh (g : CommitGraph) : Prop :=
  ∀ j m, lookupNode g j = some m → m.parent = none ∧ m.children = []

/-- No trunk node carries a parent link. -/
def MastersNoParent (g : CommitGraph) : Prop :=
  ∀ j m, lookupNode g j = some m → m.is_master = true → m.parent = none

/-- Invariant relating the graph during the linking pass to the walk
output `g0` it started from: keys are stable, the immutable fields are
unchanged, trunk nodes never acquire a parent, and the parent/children
links stay bidirectionally consistent, closed and duplicate-free. -/
def LinkInv (g0 acc : CommitGraph) : Prop :=
  (∀ j, isKey acc j = isKey g0 j) ∧
  (∀ j m, lookupNode acc j = some m → ∃ n, lookupNode g0 j = some n ∧
    m.commit = n.commit ∧ m.is_master = n.is_master ∧
    m.is_visible = n.is_visible ∧ m.event = n.event) ∧
  MastersNoParent acc ∧
  ChildrenClosed acc ∧
  ParentLinked acc ∧
  ChildrenNodup acc

/-! ## Concrete instances

Small repositories exercising the scenarios named by the specification,
used below as witnesses and counterexamples. -/

/-- Replayer with no events at all. -/
def quietReplayer : EventReplayer := ⟨[], fun _ => none, fun _ => none⟩

/-- Two-branch example of the specification: commits `A = 1` and `B = 2`
both with the single parent `M = 0`, sharing only `M`. -/
def twoBranchRepo : List Commit := [⟨0, []⟩, ⟨1, [0]⟩, ⟨2, [0]⟩]

/-- Merge-base oracle for `twoBranchRepo`. -/
def twoBranchMb : MergeBaseDb := fun a b => if a = b then some a else some 0

/-- A commit `A = 1` whose single parent is `B = 0`: the true merge-base
of `A` and `B` is `B` itself. -/
def wrongOrderRepo : List Commit := [⟨0, []⟩, ⟨1, [0]⟩]

/-- Merge-base oracle for `wrongOrderRepo`. -/
def wrongOrderMb : MergeBaseDb := fun _ _ => some 0

/-- Graph with a visible master leaf `1` and a non-master HEAD node `2`:
input for evaluating the master branch of `should_hide`. -/
def masterLeafGraph : CommitGraph :=
  [(1, ⟨⟨1, []⟩, none, [], true, true, none⟩),
   (2, ⟨⟨2, [1]⟩, none, [], false, true, none⟩)]

/-- The same graph with the master leaf marked not-visible. -/
def masterLeafGraphHidden : CommitGraph :=
  [(1, ⟨⟨1, []⟩, none, [], true, false, none⟩),
   (2, ⟨⟨2, [1]⟩, none, [], false, true, none⟩)]

/-- End-to-end scenario of the specification: trunk at `M = 0`, linear
history `M → A → B → C` with `A = 1`, `B = 2`, `C = 3`; local branches
master at `M` and feature at `C`; HEAD at `C`. -/
def scenarioRepo : Repo := ⟨[⟨0, []⟩, ⟨1, [0]⟩, ⟨2, [1]⟩, ⟨3, [2]⟩], 3, [0, 3]⟩

/-- Merge-base oracle for `scenarioRepo`: everything meets at `M = 0`. -/
def scenarioMb : MergeBaseDb := fun a b =>
  if a = b then some a else if b = 0 ∨ a = 0 then some 0 else none

/-- Replayer for `scenarioRepo`: `A` and `B` carry hide events and
nothing is active. -/
def scenarioReplayer : EventReplayer :=
  ⟨[], fun o => if o = 1 ∨ o = 2 then some Vis.hidden else none, fun _ => none⟩

/-- The graph the walk phase builds for `scenarioRepo` (checked by
evaluation below): the full chain with `A`, `B` marked not-visible. -/
def scenarioWalkGraph : CommitGraph :=
  [(0, ⟨⟨0, []⟩, none, [1], true, true, none⟩),
   (3, ⟨⟨3, [2]⟩, some 2, [], false, true, none⟩),
   (2, ⟨⟨2, [1]⟩, some 1, [3], false, false, none⟩),
   (1, ⟨⟨1, [0]⟩, some 0, [2], false, false, none⟩)]

/-- Repository with a hidden merge commit: root master `0`; hidden `1`
and visible `2`, both children of `0`; hidden merge `3` with parents
`[1, 2]`; visible branch tip `4` (also HEAD) with parent `1`. -/
def mergeRepo : Repo :=
  ⟨[⟨0, []⟩, ⟨1, [0]⟩, ⟨2, [0]⟩, ⟨3, [1, 2]⟩, ⟨4, [1]⟩], 4, [0, 4]⟩

/-- Merge-base oracle for `mergeRepo`: everything meets at `0`. -/
def mergeMb : MergeBaseDb := fun a b =>
  if a = b then some a else if a = 0 ∨ b = 0 then some 0 else none

/-- Replayer for `mergeRepo`: `1` and `3` are hidden; `3` and `2` are
active so that both enter the graph. -/
def mergeReplayer : EventReplayer :=
  ⟨[3, 2], fun o => if o = 1 ∨ o = 3 then some Vis.hidden else none, fun _ => none⟩

/-- The graph built for `mergeRepo` (branches `0` and `4`, HEAD `4`). -/
def mergeGraph : CommitGraph :=
  walk_from_commits mergeRepo.commits mergeMb mergeReplayer 0 10
    (mergeReplayer.getActiveOids ++ mergeRepo.localBranchOids ++ [mergeRepo.headOid])

/-- Repository whose build graph holds two master nodes in one component:
master history `2 ← 3 ← 5` (tip `5`), a merge commit `10` with parents
`[3, 2]` (HEAD), and `11` with parent `2` (a branch tip). -/
def twoMasterRepo : Repo :=
  ⟨[⟨2, []⟩, ⟨3, [2]⟩, ⟨5, [3]⟩, ⟨10, [3, 2]⟩, ⟨11, [2]⟩], 10, [5, 11]⟩

/-- Merge-base oracle for `twoMasterRepo`, consistent with its true
merge-bases: the merge-base of `10` with master history is `3`, and that
of `11` is `2`. -/
def twoMasterMb : MergeBaseDb := fun a b =>
  if a = 5 ∧ b = 5 then some 5 else
  if a = 11 then some 2 else
  if a = 10 then some 3 else none

/-- The graph built for `twoMasterRepo`. -/
def twoMasterGraph : CommitGraph :=
  walk_from_commits twoMasterRepo.commits twoMasterMb quietReplayer 5 10
    (quietReplayer.getActiveOids ++ twoMasterRepo.localBranchOids ++ [twoMasterRepo.headOid])

/-- Repository whose master branch tip is itself a merge commit: roots
`1` and `2`, their merge `3` (the master oid), and HEAD `6` on top of
`3`; local branches pin `1` and `2` so both roots enter the graph. -/
def trunkMergeRepo : Repo :=
  ⟨[⟨1, []⟩, ⟨2, []⟩, ⟨3, [1, 2]⟩, ⟨6, [3]⟩], 6, [1, 2]⟩

/-- Merge-base oracle for `trunkMergeRepo`, consistent with its true
merge-bases against the master oid `3`: each root is its own merge-base
with `3`, and the merge-base of `6` (and of `3`) with `3` is `3`. -/
def trunkMergeMb : MergeBaseDb := fun a _ =>
  if a = 1 then some 1 else if a = 2 then some 2 else
  if a = 3 then some 3 else if a = 6 then some 3 else none

/-- The graph built for `trunkMergeRepo`. -/
def trunkMergeGraph : CommitGraph :=
  walk_from_commits trunkMergeRepo.commits trunkMergeMb quietReplayer 3 10
    (quietReplayer.getActiveOids ++ trunkMergeRepo.localBranchOids
      ++ [trunkMergeRepo.headOid])

/-- Repository for the anomaly cases of the builder: `1` has no
merge-base with master (a rewritten root), `2` has a merge-base `9` but
no ancestry path to it, and HEAD `3` sits directly on master `0`. -/
def anomalyRepo : List Commit := [⟨0, []⟩, ⟨1, []⟩, ⟨2, []⟩, ⟨3, [0]⟩]

/-- Merge-base oracle for `anomalyRepo`. -/
def anomalyMb : MergeBaseDb := fun a b =>
  if a = 1 then none else
  if a = 2 then some 9 else
  if a = b then some a else
  if b = 0 then some 0 else none

/-- Graph with a not-visible leaf `7` that is a local branch tip, plus a
visible HEAD node `8`. -/
def branchTipGraph : CommitGraph :=
  [(7, ⟨⟨7, []⟩, none, [], false, false, none⟩),
   (8, ⟨⟨8, [7]⟩, none, [], false, true, none⟩)]

/-! ## Association-list infrastructure -/

theorem lookupNode_nil (oid : Nat) : lookupNode [] oid = none := rfl

theorem lookupNode_cons (kv : Nat × Node) (g : CommitGraph) (oid : Nat) :
    lookupNode (kv :: g) oid =
      if kv.1 = oid then some kv.2 else lookupNode g oid := by
  by_cases h : kv.1 = oid <;> simp [lookupNode, List.find?, h]

theorem lookupNode_mem_keys (g : CommitGraph) (oid : Nat) (n : Node)
    (h : lookupNode g oid = some n) : oid ∈ keysOf g := by
  induction g with
  | nil => simp [lookupNode] at h
  | cons kv t ih =>
    rw [lookupNode_cons] at h
    by_cases hk : kv.1 = oid
    · simp [keysOf, hk]
    · simp only [if_neg hk] at h
      simp [keysOf] at ih ⊢
      exact Or.inr (by simpa [keysOf] using ih h)

theorem isKey_of_mem_keys (g : CommitGraph) (oid : Nat)
    (h : oid ∈ keysOf g) : isKey g oid = true := by
  induction g with
  | nil => simp [keysOf] at h
  | cons kv t ih =>
    simp [keysOf] at h
    rcases h with h | h
    · simp [isKey, lookupNode_cons, h]
    · by_cases hk : kv.1 = oid
      · simp [isKey, lookupNode_cons, hk]
      · have := ih (by simpa [keysOf] using h)
        simp only [isKey, lookupNode_cons, if_neg hk] at *
        exact this

theorem mem_keys_of_isKey (g : CommitGraph) (oid : Nat)
    (h : isKey g oid = true) : oid ∈ keysOf g := by
  simp only [isKey, Option.isSome_iff_exists] at h
  obtain ⟨n, hn⟩ := h
  exact lookupNode_mem_keys g oid n hn

theorem isKey_iff_mem_keys (g : CommitGraph) (oid : Nat) :
    isKey g oid = true ↔ oid ∈ keysOf g :=
  ⟨mem_keys_of_isKey g oid, isKey_of_mem_keys g oid⟩

theorem lookupNode_isSome_of_some (g : CommitGraph) (oid : Nat) (n : Node)
    (h : lookupNode g oid = some n) : isKey g oid = true := by
  simp [isKey, h]

theorem lookupNode_update_self (g : CommitGraph) (k : Nat) (f : Node → Node) :
    lookupNode (updateNode g k f) k = (lookupNode g k).map f := by
  induction g with
  | nil => rfl
  | cons kv t ih =>
    by_cases hk : kv.1 = k
    · simp [updateNode, lookupNode_cons, hk]
    · simpa [updateNode, lookupNode_cons, hk] using ih

theorem lookupNode_update_other (g : CommitGraph) (k j : Nat) (f : Node → Node)
    (h : j ≠ k) : lookupNode (updateNode g k f) j = lookupNode g j := by
  induction g with
  | nil => rfl
  | cons kv t ih =>
    show lookupNode ((if kv.1 = k then (kv.1, f kv.2) else kv) :: updateNode t k f) j
      = lookupNode (kv :: t) j
    by_cases hk : kv.1 = k
    · have hne : ¬kv.1 = j := by rw [hk]; exact fun hh => h hh.symm
      rw [if_pos hk, lookupNode_cons, lookupNode_cons]
      simpa [hne] using ih
    · rw [if_neg hk, lookupNode_cons, lookupNode_cons]
      by_cases hj : kv.1 = j
      · simp [hj]
      · simpa [hj] using ih

theorem keysOf_update (g : CommitGraph) (k : Nat) (f : Node → Node) :
    keysOf (updateNode g k f) = keysOf g := by
  induction g with
  | nil => rfl
  | cons kv t ih =>
    by_cases hk : kv.1 = k <;> simp [updateNode, keysOf, hk] at ih ⊢ <;>
      simpa [keysOf] using ih

theorem isKey_update (g : CommitGraph) (k j : Nat) (f : Node → Node) :
    isKey (updateNode g k f) j = isKey g j := by
  by_cases h : j = k
  · subst h; simp [isKey, lookupNode_update_self]
  · simp [isKey, lookupNode_update_other g k j f h]

theorem lookupNode_erase_self (g : CommitGraph) (k : Nat) :
    lookupNode (eraseKey g k) k = none := by
  induction g with
  | nil => rfl
  | cons kv t ih =>
    by_cases hk : kv.1 = k
    · simpa [eraseKey, hk] using ih
    · simpa [eraseKey, lookupNode_cons, hk] using ih

theorem lookupNode_erase_other (g : CommitGraph) (k j : Nat) (h : j ≠ k) :
    lookupNode (eraseKey g k) j = lookupNode g j := by
  induction g with
  | nil => rfl
  | cons kv t ih =>
    rw [show eraseKey (kv :: t) k
        = if kv.1 ≠ k then kv :: eraseKey t k else eraseKey t k from by
      simp only [eraseKey, List.filter_cons]
      by_cases hk : kv.1 = k <;> simp [hk]]
    by_cases hk : kv.1 = k
    · have hne : ¬kv.1 = j := by rw [hk]; exact fun hh => h hh.symm
      rw [if_neg (by simpa using hk), lookupNode_cons]
      simpa [hne] using ih
    · rw [if_pos (by simpa using hk), lookupNode_cons, lookupNode_cons]
      by_cases hj : kv.1 = j
      · simp [hj]
      · simpa [hj] using ih

theorem lookupNode_insert_self (g : CommitGraph) (k : Nat) (n : Node)
    (h : isKey g k = false) : lookupNode (insertNode g k n) k = some n := by
  induction g with
  | nil => simp [insertNode, lookupNode_cons]
  | cons kv t ih =>
    by_cases hk : kv.1 = k
    · simp [isKey, lookupNode_cons, hk] at h
    · simp only [isKey, lookupNode_cons, if_neg hk] at h
      simpa [insertNode, lookupNode_cons, hk] using ih h

theorem lookupNode_insert_of_some (g : CommitGraph) (k j : Nat) (n m : Node)
    (h : lookupNode g j = some m) : lookupNode (insertNode g k n) j = some m := by
  induction g with
  | nil => simp [lookupNode] at h
  | cons kv t ih =>
    rw [lookupNode_cons] at h
    by_cases hk : kv.1 = j
    · simp only [if_pos hk] at h
      simp [insertNode, lookupNode_cons, hk, h]
    · simp only [if_neg hk] at h
      simpa [insertNode, lookupNode_cons, hk] using ih h

theorem isKey_insert_of_isKey (g : CommitGraph) (k j : Nat) (n : Node)
    (h : isKey g j = true) : isKey (insertNode g k n) j = true := by
  simp only [isKey, Option.isSome_iff_exists] at h ⊢
  obtain ⟨m, hm⟩ := h
  exact ⟨m, lookupNode_insert_of_some g k j n m hm⟩

theorem foldl_preserve {α β : Type} (P : α → Prop) (f : α → β → α)
    (hstep : ∀ a x, P a → P (f a x)) :
    ∀ (l : List β) (a : α), P a → P (List.foldl f a l) := by
  intro l
  induction l with
  | nil => intro a ha; exact ha
  | cons x t ih => intro a ha; exact ih (f a x) (hstep a x ha)

/-! ## Breadth-first search: soundness -/

theorem repoLookup_oid (repo : List Commit) (oid : Nat) (c : Commit)
    (h : repoLookup repo oid = some c) : c.oid = oid := by
  have := List.find?_some h
  simpa using this

theorem RPath_nonempty (repo : List Commit) (a : Nat) (e : List Commit)
    (h : RPath repo a e) : e ≠ [] := by
  intro he
  subst he
  simp [RPath] at h

theorem RPath_reverse_path (repo : List Commit) (a : Nat) (c : Commit)
    (p : List Commit) (h : RPath repo a (c :: p)) :
    IsAncPath repo a c.oid (List.reverse (c :: p)) := by
  obtain ⟨hmem, hchain, hlast⟩ := h
  refine ⟨?_, ?_, ?_, ?_⟩
  · intro x hx
    apply hmem
    have hx' : x ∈ p ∨ x = c := by simpa using hx
    rcases hx' with hx' | hx'
    · exact List.mem_cons_of_mem c hx'
    · subst hx'; exact List.mem_cons_self x p
  · rw [List.chain'_reverse]
    exact hchain
  · rw [List.head?_reverse]
    exact hlast
  · rw [List.getLast?_reverse]
    simp

theorem expansion_RPath (repo : List Commit) (a : Nat) (c : Commit)
    (p : List Commit) (h : RPath repo a (c :: p)) :
    ∀ x ∈ List.map (fun q => q :: c :: p)
      (List.filterMap (repoLookup repo) c.parents), RPath repo a x := by
  intro x hx
  simp only [List.mem_map] at hx
  obtain ⟨q, hq, rfl⟩ := hx
  simp only [List.mem_filterMap] at hq
  obtain ⟨po, hpo, hlook⟩ := hq
  have hqo : q.oid = po := repoLookup_oid repo po q hlook
  obtain ⟨hmem, hchain, hlast⟩ := h
  refine ⟨?_, ?_, ?_⟩
  · intro x hx
    rcases List.mem_cons.mp hx with rfl | hx
    · rw [hqo]; exact hlook
    · exact hmem x hx
  · exact List.Chain'.cons (by rw [hqo]; exact hpo) hchain
  · simpa using hlast

theorem bfs_sound (repo : List Commit) (a targetOid : Nat) (mb : Option Nat) :
    ∀ (fuel : Nat) (q : List (List Commit)) (res : List Commit),
    (∀ e ∈ q, RPath repo a e) →
    bfsPaths repo targetOid mb fuel q = some res →
    IsAncPath repo a targetOid res := by
  intro fuel
  induction fuel with
  | zero => intro q res _ h; simp [bfsPaths] at h
  | succ f ih =>
    intro q res hq h
    match q with
    | [] => simp [bfsPaths] at h
    | [] :: rest =>
      have : RPath repo a [] := hq [] (by simp)
      exact absurd rfl (RPath_nonempty repo a [] this)
    | (c :: p) :: rest =>
      have hcp : RPath repo a (c :: p) := hq _ (by simp)
      rw [bfsPaths] at h
      by_cases ht : c.oid = targetOid
      · rw [if_pos ht] at h
        have := RPath_reverse_path repo a c p hcp
        rw [ht] at this
        cases h
        exact this
      · rw [if_neg ht] at h
        by_cases hm : mb = some c.oid
        · rw [if_pos hm] at h
          exact ih rest res (fun e he => hq e (by simp [he])) h
        · rw [if_neg hm] at h
          refine ih _ res ?_ h
          intro e he
          rcases List.mem_append.mp he with he | he
          · exact hq e (by simp [he])
          · exact expansion_RPath repo a c p hcp e he

theorem bfs_mono_succ (repo : List Commit) (targetOid : Nat) (mb : Option Nat) :
    ∀ (fuel : Nat) (q : List (List Commit)) (res : List Commit),
    bfsPaths repo targetOid mb fuel q = some res →
    bfsPaths repo targetOid mb (fuel + 1) q = some res := by
  intro fuel
  induction fuel with
  | zero => intro q res h; simp [bfsPaths] at h
  | succ f ih =>
    intro q res h
    match q with
    | [] => simp [bfsPaths] at h
    | [] :: rest =>
      rw [bfsPaths] at h ⊢
      exact ih rest res h
    | (c :: p) :: rest =>
      rw [bfsPaths] at h ⊢
      by_cases ht : c.oid = targetOid
      · rw [if_pos ht] at h ⊢; exact h
      · rw [if_neg ht] at h ⊢
        by_cases hm : mb = some c.oid
        · rw [if_pos hm] at h ⊢; exact ih rest res h
        · rw [if_neg hm] at h ⊢; exact ih _ res h

theorem bfs_mono (repo : List Commit) (targetOid : Nat) (mb : Option Nat)
    (f f' : Nat) (q : List (List Commit)) (res : List Commit)
    (hle : f ≤ f') (h : bfsPaths repo targetOid mb f q = some res) :
    bfsPaths repo targetOid mb f' q = some res := by
  induction f' with
  | zero =>
    have : f = 0 := Nat.le_zero.mp hle
    subst this
    exact h
  | succ n ih =>
    by_cases he : f = n + 1
    · subst he; exact h
    · have : f ≤ n := Nat.lt_succ_iff.mp (Nat.lt_of_le_of_ne hle he)
      exact bfs_mono_succ repo targetOid mb n q res (ih this)

theorem find_path_none_of_unreachable (repo : List Commit) (mbDb : MergeBaseDb)
    (a b : Nat) (fuel : Nat)
    (h : ∀ p, ¬ IsAncPath repo a b p) :
    find_path_to_merge_base repo mbDb a b fuel = none := by
  by_cases hl : ∃ c, repoLookup repo a = some c
  · obtain ⟨c, hl⟩ := hl
    have hstep : find_path_to_merge_base repo mbDb a b fuel
        = bfsPaths repo b (mbDb a b) fuel [[c]] := by
      unfold find_path_to_merge_base
      rw [hl]
    rw [hstep]
    cases hb : bfsPaths repo b (mbDb a b) fuel [[c]] with
    | none => rfl
    | some res =>
      exfalso
      refine h res (bfs_sound repo a b (mbDb a b) fuel [[c]] res ?_ hb)
      intro e he
      simp only [List.mem_singleton] at he
      subst he
      have hco : c.oid = a := repoLookup_oid repo a c hl
      exact ⟨by intro x hx; simp at hx; subst hx; rw [hco]; exact hl,
        List.chain'_singleton c, by simp [hco]⟩
  · have hl' : repoLookup repo a = none := by
      cases h2 : repoLookup repo a with
      | none => rfl
      | some c => exact absurd ⟨c, h2⟩ hl
    unfold find_path_to_merge_base
    rw [hl']

/-! ## Breadth-first search: completeness and minimality -/

theorem pairwise_of_all {α : Type} (R : α → α → Prop) :
    ∀ (l : List α), (∀ x ∈ l, ∀ y ∈ l, R x y) → List.Pairwise R l := by
  intro l
  induction l with
  | nil => intro _; exact List.Pairwise.nil
  | cons x t ih =>
    intro h
    refine List.Pairwise.cons ?_ (ih ?_)
    · intro y hy; exact h x (by simp) y (by simp [hy])
    · intro u hu v hv; exact h u (by simp [hu]) v (by simp [hv])

theorem QLenInv_step (e : List Commit) (rest exps : List (List Commit))
    (h : QLenInv (e :: rest))
    (hexp : ∀ x ∈ exps, x.length = e.length + 1) :
    QLenInv (rest ++ exps) := by
  rw [QLenInv] at h ⊢
  rw [List.pairwise_cons] at h
  obtain ⟨hhead, hrest⟩ := h
  rw [List.pairwise_append]
  refine ⟨hrest, ?_, ?_⟩
  · refine pairwise_of_all _ exps ?_
    intro x hx y hy
    rw [hexp x hx, hexp y hy]
    omega
  · intro x hx y hy
    have h1 := hhead x hx
    have h2 := hexp y hy
    omega

theorem QLenInv_front_le (e x : List Commit) (rest : List (List Commit))
    (h : QLenInv (e :: rest)) (hx : x ∈ rest) : e.length ≤ x.length := by
  rw [QLenInv, List.pairwise_cons] at h
  exact (h.1 x hx).1

theorem exists_min_path (repo : List Commit) (a b : Nat)
    (hex : ∃ W, IsAncPath repo a b W) :
    ∃ W0, IsAncPath repo a b W0 ∧
      ∀ q, IsAncPath repo a b q → W0.length ≤ q.length := by
  obtain ⟨W, hW⟩ := hex
  by_contra hno
  push_neg at hno
  have hdesc : ∀ n (V : List Commit), V.length = n → IsAncPath repo a b V → False := by
    intro n
    induction n using Nat.strong_induction_on with
    | _ n ih =>
      intro V hlen hV
      obtain ⟨q, hq, hlt⟩ := hno V hV
      exact ih q.length (hlen ▸ hlt) q rfl hq
  exact hdesc W.length W rfl hW

theorem exps_length (c : Commit) (p : List Commit) (repo : List Commit) :
    ∀ x ∈ List.map (fun q => q :: c :: p)
      (List.filterMap (repoLookup repo) c.parents),
      x.length = (c :: p).length + 1 := by
  intro x hx
  simp only [List.mem_map] at hx
  obtain ⟨q, _, rfl⟩ := hx
  simp


theorem bfs_return (repo : List Commit) (targetOid : Nat) (mb : Option Nat)
    (c : Commit) (p : List Commit) (rest : List (List Commit))
    (hct : c.oid = targetOid) :
    bfsPaths repo targetOid mb 1 ((c :: p) :: rest) = some (List.reverse (c :: p)) := by
  rw [bfsPaths, if_pos hct]

theorem bfs_expand (repo : List Commit) (targetOid : Nat) (mb : Option Nat)
    (c : Commit) (p : List Commit) (rest : List (List Commit)) (f : Nat)
    (hct : ¬ c.oid = targetOid) (hmb : ¬ mb = some c.oid) :
    bfsPaths repo targetOid mb (f + 1) ((c :: p) :: rest) =
      bfsPaths repo targetOid mb f
        (rest ++ List.map (fun q => q :: c :: p)
          (List.filterMap (repoLookup repo) c.parents)) := by
  rw [bfsPaths, if_neg hct, if_neg hmb]

theorem bfs_main (repo : List Commit) (a targetOid : Nat) (W : List Commit)
    (hW : IsAncPath repo a targetOid W)
    (hWmin : ∀ q, IsAncPath repo a targetOid q → W.length ≤ q.length) :
    ∀ (rest V : List Commit), W = V ++ rest → V ≠ [] →
    ∀ (q₁ q₂ : List (List Commit)),
    (∀ e ∈ q₁ ++ V.reverse :: q₂, RPath repo a e) →
    QLenInv (q₁ ++ V.reverse :: q₂) →
    ∃ (f : Nat) (res : List Commit),
      bfsPaths repo targetOid (some targetOid) f (q₁ ++ V.reverse :: q₂) = some res ∧
      IsAncPath repo a targetOid res ∧ res.length = W.length := by
  intro rest
  induction rest with
  | nil =>
    intro V hWV hVne q₁ q₂
    induction q₁ generalizing q₂ with
    | nil =>
      intro hq hQ
      have hVW : W = V := by rw [hWV, List.append_nil]
      obtain ⟨c, p, hsplit⟩ : ∃ c p, V.reverse = c :: p := by
        cases hrv : V.reverse with
        | nil => exact absurd (by simpa using congrArg List.reverse hrv) hVne
        | cons c p => exact ⟨c, p, rfl⟩
      have hct : c.oid = targetOid := by
        have hh : (V.reverse).head?.map Commit.oid = some targetOid := by
          rw [List.head?_reverse, ← hVW]
          exact hW.2.2.2
        rw [hsplit] at hh
        simpa using hh
      refine ⟨1, W, ?_, hW, rfl⟩
      have hqeq : ([] : List (List Commit)) ++ V.reverse :: q₂ = (c :: p) :: q₂ := by
        rw [List.nil_append, hsplit]
      rw [hqeq, bfs_return repo targetOid (some targetOid) c p q₂ hct]
      rw [← hsplit, List.reverse_reverse, hVW]
    | cons e q₁' ih1 =>
      intro hq hQ
      have hep : RPath repo a e := hq e (by simp)
      obtain ⟨c, p, rfl⟩ : ∃ c p, e = c :: p := by
        cases e with
        | nil => exact absurd rfl (RPath_nonempty repo a [] hep)
        | cons c p => exact ⟨c, p, rfl⟩
      have hqeq : ((c :: p) :: q₁') ++ V.reverse :: q₂
          = (c :: p) :: (q₁' ++ V.reverse :: q₂) := List.cons_append _ _ _
      by_cases hct : c.oid = targetOid
      · refine ⟨1, List.reverse (c :: p), ?_, ?_, ?_⟩
        · rw [hqeq, bfs_return repo targetOid (some targetOid) c p _ hct]
        · have hr := RPath_reverse_path repo a c p hep
          rw [hct] at hr
          exact hr
        · have hr := RPath_reverse_path repo a c p hep
          rw [hct] at hr
          have hge : W.length ≤ (c :: p).length := by
            simpa using hWmin _ hr
          have hle : (c :: p).length ≤ W.length := by
            have hmem : V.reverse ∈ q₁' ++ V.reverse :: q₂ := by simp
            have h3 := QLenInv_front_le (c :: p) V.reverse (q₁' ++ V.reverse :: q₂)
              (by rw [← hqeq]; exact hQ) hmem
            have h4 : V.length ≤ W.length := by
              rw [hWV, List.length_append]
              omega
            simp only [List.length_reverse] at h3
            omega
          simp only [List.length_reverse]
          omega
      · have hmb : ¬ (some targetOid = some c.oid) := by
          intro hh
          exact hct (by injection hh with hh2; exact hh2.symm)
        obtain ⟨f, res, hrun, hpath, hlen⟩ :=
          ih1 (q₂ ++ List.map (fun q => q :: c :: p)
            (List.filterMap (repoLookup repo) c.parents))
            (by
              intro x hx
              rcases List.mem_append.mp hx with hx2 | hx2
              · exact hq x (by rw [hqeq]; simp [hx2])
              · rcases List.mem_cons.mp hx2 with hx3 | hx3
                · subst hx3
                  exact hq V.reverse (by rw [hqeq]; simp)
                · rcases List.mem_append.mp hx3 with hx4 | hx4
                  · exact hq x (by rw [hqeq]; simp [hx4])
                  · exact expansion_RPath repo a c p hep x hx4)
            (by
              have hstep := QLenInv_step (c :: p) (q₁' ++ V.reverse :: q₂)
                (List.map (fun q => q :: c :: p)
                  (List.filterMap (repoLookup repo) c.parents))
                (by rw [← hqeq]; exact hQ) (exps_length c p repo)
              simpa [List.append_assoc] using hstep)
        refine ⟨f + 1, res, ?_, hpath, hlen⟩
        rw [hqeq, bfs_expand repo targetOid (some targetOid) c p _ f hct
          (fun hh => hmb hh)]
        simpa [List.append_assoc] using hrun
  | cons w rest' ihrest =>
    intro V hWV hVne q₁ q₂
    induction q₁ generalizing q₂ with
    | nil =>
      intro hq hQ
      obtain ⟨c, p, hsplit⟩ : ∃ c p, V.reverse = c :: p := by
        cases hrv : V.reverse with
        | nil => exact absurd (by simpa using congrArg List.reverse hrv) hVne
        | cons c p => exact ⟨c, p, rfl⟩
      have hgetV : V.getLast? = some c := by
        rw [← List.head?_reverse, hsplit]
        rfl
      have hVpath : IsAncPath repo a c.oid V := by
        refine ⟨?_, ?_, ?_, ?_⟩
        · intro x hx
          exact hW.1 x (by rw [hWV]; exact List.mem_append_left _ hx)
        · exact List.Chain'.prefix hW.2.1 (hWV ▸ List.prefix_append V (w :: rest'))
        · have hh := hW.2.2.1
          rw [hWV] at hh
          cases V with
          | nil => exact absurd rfl hVne
          | cons v V' => simpa using hh
        · rw [hgetV]
          rfl
      have hct : ¬ c.oid = targetOid := by
        intro hc
        rw [hc] at hVpath
        have hmin := hWmin V hVpath
        have hlenW : W.length = V.length + (w :: rest').length := by
          rw [hWV, List.length_append]
        simp only [List.length_cons] at hlenW
        omega
      have hmb : ¬ (some targetOid = some c.oid) := by
        intro hh
        exact hct (by injection hh with hh2; exact hh2.symm)
      have hwmem : w ∈ W := by rw [hWV]; simp
      have hwlook : repoLookup repo w.oid = some w := hW.1 w hwmem
      have hwpar : w.oid ∈ c.parents := by
        have hchain := hW.2.1
        rw [hWV, List.chain'_append] at hchain
        exact hchain.2.2 c (by rw [hgetV]; rfl) w (by simp)
      have hwexp : (w :: c :: p) ∈ List.map (fun q => q :: c :: p)
          (List.filterMap (repoLookup repo) c.parents) := by
        simp only [List.mem_map]
        refine ⟨w, ?_, rfl⟩
        simp only [List.mem_filterMap]
        exact ⟨w.oid, hwpar, hwlook⟩
      obtain ⟨E1, E2, hE⟩ := List.append_of_mem hwexp
      have hrev' : (V ++ [w]).reverse = w :: c :: p := by
        rw [List.reverse_append, hsplit]
        rfl
      have hfront : RPath repo a (c :: p) := by
        rw [← hsplit]
        refine ⟨?_, ?_, ?_⟩
        · intro x hx
          exact hVpath.1 x (by simpa using hx)
        · rw [List.chain'_reverse]
          exact hVpath.2.1
        · rw [List.getLast?_reverse]
          exact hVpath.2.2.1
      obtain ⟨f, res, hrun, hpath, hlen⟩ :=
        ihrest (V ++ [w]) (by rw [hWV]; simp) (by simp)
          (q₂ ++ E1) E2
          (by
            intro x hx
            rw [hrev'] at hx
            have hx2 : x ∈ q₂ ∨ x ∈ E1 ++ (w :: c :: p) :: E2 := by
              rcases List.mem_append.mp hx with h1 | h1
              · rcases List.mem_append.mp h1 with h2 | h2
                · exact Or.inl h2
                · exact Or.inr (List.mem_append_left _ h2)
              · rcases List.mem_cons.mp h1 with rfl | h2
                · exact Or.inr (by simp)
                · exact Or.inr (by simp [h2])
            rcases hx2 with h1 | h1
            · exact hq x (by simp [hsplit, h1])
            · exact expansion_RPath repo a c p hfront x (by rw [hE]; exact h1))
          (by
            have hstep := QLenInv_step (c :: p) q₂
              (List.map (fun q => q :: c :: p)
                (List.filterMap (repoLookup repo) c.parents))
              (by
                have hq2 : ([] : List (List Commit)) ++ V.reverse :: q₂
                    = (c :: p) :: q₂ := by rw [List.nil_append, hsplit]
                rw [← hq2]
                exact hQ)
              (exps_length c p repo)
            rw [hE] at hstep
            rw [hrev']
            simpa [List.append_assoc] using hstep)
      refine ⟨f + 1, res, ?_, hpath, hlen⟩
      have hqeq : ([] : List (List Commit)) ++ V.reverse :: q₂ = (c :: p) :: q₂ := by
        rw [List.nil_append, hsplit]
      rw [hqeq, bfs_expand repo targetOid (some targetOid) c p q₂ f hct
        (fun hh => hmb hh)]
      rw [hE]
      rw [hrev'] at hrun
      simpa [List.append_assoc] using hrun
    | cons e q₁' ih1 =>
      intro hq hQ
      have hep : RPath repo a e := hq e (by simp)
      obtain ⟨c, p, rfl⟩ : ∃ c p, e = c :: p := by
        cases e with
        | nil => exact absurd rfl (RPath_nonempty repo a [] hep)
        | cons c p => exact ⟨c, p, rfl⟩
      have hqeq : ((c :: p) :: q₁') ++ V.reverse :: q₂
          = (c :: p) :: (q₁' ++ V.reverse :: q₂) := List.cons_append _ _ _
      by_cases hct : c.oid = targetOid
      · refine ⟨1, List.reverse (c :: p), ?_, ?_, ?_⟩
        · rw [hqeq, bfs_return repo targetOid (some targetOid) c p _ hct]
        · have hr := RPath_reverse_path repo a c p hep
          rw [hct] at hr
          exact hr
        · have hr := RPath_reverse_path repo a c p hep
          rw [hct] at hr
          have hge : W.length ≤ (c :: p).length := by
            simpa using hWmin _ hr
          have hle : (c :: p).length ≤ W.length := by
            have hmem : V.reverse ∈ q₁' ++ V.reverse :: q₂ := by simp
            have h3 := QLenInv_front_le (c :: p) V.reverse (q₁' ++ V.reverse :: q₂)
              (by rw [← hqeq]; exact hQ) hmem
            have h4 : V.length ≤ W.length := by
              rw [hWV, List.length_append]
              omega
            simp only [List.length_reverse] at h3
            omega
          simp only [List.length_reverse]
          omega
      · have hmb : ¬ (some targetOid = some c.oid) := by
          intro hh
          exact hct (by injection hh with hh2; exact hh2.symm)
        obtain ⟨f, res, hrun, hpath, hlen⟩ :=
          ih1 (q₂ ++ List.map (fun q => q :: c :: p)
            (List.filterMap (repoLookup repo) c.parents))
            (by
              intro x hx
              rcases List.mem_append.mp hx with hx2 | hx2
              · exact hq x (by rw [hqeq]; simp [hx2])
              · rcases List.mem_cons.mp hx2 with hx3 | hx3
                · subst hx3
                  exact hq V.reverse (by rw [hqeq]; simp)
                · rcases List.mem_append.mp hx3 with hx4 | hx4
                  · exact hq x (by rw [hqeq]; simp [hx4])
                  · exact expansion_RPath repo a c p hep x hx4)
            (by
              have hstep := QLenInv_step (c :: p) (q₁' ++ V.reverse :: q₂)
                (List.map (fun q => q :: c :: p)
                  (List.filterMap (repoLookup repo) c.parents))
                (by rw [← hqeq]; exact hQ) (exps_length c p repo)
              simpa [List.append_assoc] using hstep)
        refine ⟨f + 1, res, ?_, hpath, hlen⟩
        rw [hqeq, bfs_expand repo targetOid (some targetOid) c p _ f hct
          (fun hh => hmb hh)]
        simpa [List.append_assoc] using hrun

theorem find_path_shortest (repo : List Commit) (mbDb : MergeBaseDb) (a b : Nat)
    (W : List Commit) (hW : IsAncPath repo a b W)
    (hmb : mbDb a b = some b) :
    ∃ (F : Nat) (res : List Commit),
      (∀ f, F ≤ f → find_path_to_merge_base repo mbDb a b f = some res) ∧
      IsAncPath repo a b res ∧
      ∀ q, IsAncPath repo a b q → res.length ≤ q.length := by
  obtain ⟨W0, hW0, hmin⟩ := exists_min_path repo a b ⟨W, hW⟩
  obtain ⟨c0, T, rfl⟩ : ∃ c0 T, W0 = c0 :: T := by
    cases W0 with
    | nil => simp [IsAncPath] at hW0
    | cons c T => exact ⟨c, T, rfl⟩
  have hc0a : c0.oid = a := by
    have hh := hW0.2.2.1
    simpa using hh
  have hlook : repoLookup repo a = some c0 := by
    have hh := hW0.1 c0 (by simp)
    rw [hc0a] at hh
    exact hh
  obtain ⟨f, res, hrun, hpath, hlen⟩ :=
    bfs_main repo a b (c0 :: T) hW0 hmin T [c0] rfl (by simp) [] []
      (by
        intro e he
        simp only [List.nil_append, List.mem_singleton] at he
        subst he
        refine ⟨?_, ?_, ?_⟩
        · intro x hx
          simp only [List.reverse_singleton, List.mem_singleton] at hx
          subst hx
          rw [hc0a]
          exact hlook
        · simp
        · simp [hc0a])
      (by
        simp only [List.nil_append]
        exact List.pairwise_singleton _ _)
  refine ⟨f, res, ?_, hpath, fun q hq => by rw [hlen]; exact hmin q hq⟩
  intro f' hf'
  have hstep : find_path_to_merge_base repo mbDb a b f'
      = bfsPaths repo b (mbDb a b) f' [[c0]] := by
    unfold find_path_to_merge_base
    rw [hlook]
  rw [hstep, hmb]
  have hqq : ([] : List (List Commit)) ++ ([c0].reverse) :: [] = [[c0]] := by simp
  rw [hqq] at hrun
  exact bfs_mono repo b (some b) f f' [[c0]] res hf' hrun

/-! ## Graph builder: the walk phase -/

theorem lookup_insert_cases (g : CommitGraph) (k j : Nat) (n m : Node)
    (h : lookupNode (insertNode g k n) j = some m) :
    lookupNode g j = some m ∨ (j = k ∧ m = n) := by
  induction g with
  | nil =>
    rw [show insertNode ([] : CommitGraph) k n = [(k, n)] from rfl,
      lookupNode_cons] at h
    by_cases hk : k = j
    · subst hk
      simp only [if_pos rfl] at h
      exact Or.inr ⟨rfl, (Option.some_injective _ h).symm⟩
    · rw [if_neg hk] at h
      simp [lookupNode] at h
  | cons kv t ih =>
    have hcons : insertNode (kv :: t) k n = kv :: insertNode t k n := rfl
    rw [hcons, lookupNode_cons] at h
    by_cases hk : kv.1 = j
    · simp only [if_pos hk] at h
      exact Or.inl (by rw [lookupNode_cons, if_pos hk]; exact h)
    · simp only [if_neg hk] at h
      rcases ih h with h1 | h1
      · exact Or.inl (by rw [lookupNode_cons, if_neg hk]; exact h1)
      · exact Or.inr h1

theorem keysOf_insert (g : CommitGraph) (k : Nat) (n : Node) :
    keysOf (insertNode g k n) = keysOf g ++ [k] := by
  simp [keysOf, insertNode]

theorem addPath_fresh (replayer : EventReplayer) (mbo : Option Nat) :
    ∀ (path : List Commit) (g : CommitGraph),
    WalkFresh g → (keysOf g).Nodup →
    WalkFresh (addPath replayer mbo g path) ∧
      (keysOf (addPath replayer mbo g path)).Nodup := by
  intro path
  induction path with
  | nil => intro g hf hn; exact ⟨hf, hn⟩
  | cons c rest ih =>
    intro g hf hn
    rw [addPath]
    by_cases hk : isKey g c.oid = true
    · rw [if_pos hk]; exact ⟨hf, hn⟩
    · rw [if_neg hk]
      refine ih _ ?_ ?_
      · intro j m hm
        rcases lookup_insert_cases g c.oid j (mkNode replayer mbo c) m hm with h1 | h1
        · exact hf j m h1
        · rw [h1.2]; exact ⟨rfl, rfl⟩
      · rw [keysOf_insert]
        refine List.Nodup.append hn (by simp) ?_
        intro x hx hx2
        simp only [List.mem_singleton] at hx2
        subst hx2
        exact hk (isKey_of_mem_keys g _ hx)

theorem walkOne_fresh (repo : List Commit) (mbDb : MergeBaseDb)
    (replayer : EventReplayer) (masterOid fuel : Nat) (g : CommitGraph) (oid : Nat)
    (hf : WalkFresh g) (hn : (keysOf g).Nodup) :
    WalkFresh (walkOne repo mbDb replayer masterOid fuel g oid) ∧
      (keysOf (walkOne repo mbDb replayer masterOid fuel g oid)).Nodup := by
  rw [walkOne]
  split
  · exact ⟨hf, hn⟩
  · split
    · exact addPath_fresh replayer none [_] g hf hn
    · split
      · exact ⟨hf, hn⟩
      · exact addPath_fresh replayer (some _) _ g hf hn

theorem walk_pre_fresh (repo : List Commit) (mbDb : MergeBaseDb)
    (replayer : EventReplayer) (masterOid fuel : Nat) (oids : List Nat) :
    WalkFresh (List.foldl (walkOne repo mbDb replayer masterOid fuel) [] oids) ∧
      (keysOf (List.foldl (walkOne repo mbDb replayer masterOid fuel) [] oids)).Nodup := by
  refine foldl_preserve
    (fun g => WalkFresh g ∧ (keysOf g).Nodup)
    (walkOne repo mbDb replayer masterOid fuel) ?_ oids [] ?_
  · intro g oid hg
    exact walkOne_fresh repo mbDb replayer masterOid fuel g oid hg.1 hg.2
  · constructor
    · intro j m hm
      simp [lookupNode] at hm
    · simp [keysOf]

/-! ## Graph builder: the linking pass -/

theorem isKey_link (g : CommitGraph) (p c j : Nat) :
    isKey (link g p c) j = isKey g j := by
  rw [link, isKey_update, isKey_update]

theorem lookup_link_of_ne (g : CommitGraph) (p c j : Nat)
    (hjp : j ≠ p) (hjc : j ≠ c) :
    lookupNode (link g p c) j = lookupNode g j := by
  rw [link, lookupNode_update_other _ _ _ _ hjp,
    lookupNode_update_other _ _ _ _ hjc]

theorem lookup_link_child (g : CommitGraph) (p c : Nat) (hcp : c ≠ p) :
    lookupNode (link g p c) c
      = (lookupNode g c).map (fun n => { n with parent := some p }) := by
  rw [link, lookupNode_update_other _ _ _ _ hcp, lookupNode_update_self]

theorem lookup_link_parent (g : CommitGraph) (p c : Nat) (hcp : c ≠ p) :
    lookupNode (link g p c) p
      = (lookupNode g p).map (fun n =>
          { n with children :=
              if c ∈ n.children then n.children else n.children ++ [c] }) := by
  rw [link, lookupNode_update_self,
    lookupNode_update_other _ _ _ _ (fun hh => hcp hh.symm)]

theorem lookup_link_self (g : CommitGraph) (c : Nat) :
    lookupNode (link g c c) c
      = (lookupNode g c).map (fun n =>
          { n with parent := some c
                   children :=
              if c ∈ n.children then n.children else n.children ++ [c] }) := by
  rw [link, lookupNode_update_self, lookupNode_update_self]
  cases lookupNode g c <;> rfl

theorem link_fields (g : CommitGraph) (p c j : Nat) (m : Node)
    (h : lookupNode (link g p c) j = some m) :
    ∃ n, lookupNode g j = some n ∧
      m.commit = n.commit ∧ m.is_master = n.is_master ∧
      m.is_visible = n.is_visible ∧ m.event = n.event ∧
      (m.parent = n.parent ∨ (j = c ∧ m.parent = some p)) ∧
      (∀ x ∈ n.children, x ∈ m.children) ∧
      (∀ x ∈ m.children, x ∈ n.children ∨ (j = p ∧ x = c)) ∧
      (n.children.Nodup → m.children.Nodup) := by
  by_cases hjc : j = c
  · by_cases hpc : p = c
    · rw [hjc, hpc, lookup_link_self] at h
      rw [Option.map_eq_some'] at h
      obtain ⟨n, hn, hm⟩ := h
      subst hm
      refine ⟨n, by rw [hjc]; exact hn, rfl, rfl, rfl, rfl,
        Or.inr ⟨hjc, by rw [hpc]⟩, ?_, ?_, ?_⟩
      · intro x hx
        by_cases hcx : c ∈ n.children <;> simp [hcx, hx]
      · intro x hx
        by_cases hcx : c ∈ n.children
        · simp only [if_pos hcx] at hx
          exact Or.inl hx
        · simp only [if_neg hcx, List.mem_append, List.mem_singleton] at hx
          rcases hx with hx | hx
          · exact Or.inl hx
          · exact Or.inr ⟨by rw [hjc, hpc], hx⟩
      · intro hnd
        by_cases hcx : c ∈ n.children
        · simpa [hcx] using hnd
        · simp only [if_neg hcx]
          refine List.Nodup.append hnd (by simp) ?_
          intro x hx hx2
          simp only [List.mem_singleton] at hx2
          subst hx2
          exact hcx hx
    · rw [hjc, lookup_link_child g p c (fun hh => hpc hh.symm)] at h
      rw [Option.map_eq_some'] at h
      obtain ⟨n, hn, hm⟩ := h
      subst hm
      exact ⟨n, by rw [hjc]; exact hn, rfl, rfl, rfl, rfl,
        Or.inr ⟨hjc, rfl⟩, fun x hx => hx, fun x hx => Or.inl hx, fun hh => hh⟩
  · by_cases hjp : j = p
    · have hcp : c ≠ p := fun hh => hjc (by rw [hjp, hh])
      rw [hjp, lookup_link_parent g p c hcp] at h
      rw [Option.map_eq_some'] at h
      obtain ⟨n, hn, hm⟩ := h
      subst hm
      refine ⟨n, by rw [hjp]; exact hn, rfl, rfl, rfl, rfl, Or.inl rfl,
        ?_, ?_, ?_⟩
      · intro x hx
        by_cases hcx : c ∈ n.children <;> simp [hcx, hx]
      · intro x hx
        by_cases hcx : c ∈ n.children
        · simp only [if_pos hcx] at hx
          exact Or.inl hx
        · simp only [if_neg hcx, List.mem_append, List.mem_singleton] at hx
          rcases hx with hx | hx
          · exact Or.inl hx
          · exact Or.inr ⟨hjp, hx⟩
      · intro hnd
        by_cases hcx : c ∈ n.children
        · simpa [hcx] using hnd
        · simp only [if_neg hcx]
          refine List.Nodup.append hnd (by simp) ?_
          intro x hx hx2
          simp only [List.mem_singleton] at hx2
          subst hx2
          exact hcx hx
    · rw [lookup_link_of_ne g p c j hjp hjc] at h
      exact ⟨m, h, rfl, rfl, rfl, rfl, Or.inl rfl,
        fun x hx => hx, fun x hx => Or.inl hx, fun hh => hh⟩

theorem link_child_mem (g : CommitGraph) (p c : Nat)
    (hkp : isKey g p = true) :
    ∃ mp, lookupNode (link g p c) p = some mp ∧ c ∈ mp.children := by
  simp only [isKey, Option.isSome_iff_exists] at hkp
  obtain ⟨n, hn⟩ := hkp
  by_cases hcp : c = p
  · subst hcp
    rw [lookup_link_self, hn]
    refine ⟨_, rfl, ?_⟩
    by_cases hcx : c ∈ n.children <;> simp [hcx]
  · rw [lookup_link_parent g p c hcp, hn]
    refine ⟨_, rfl, ?_⟩
    by_cases hcx : c ∈ n.children <;> simp [hcx]

theorem link_child_grow (g : CommitGraph) (p c j x : Nat)
    (h : ∃ m, lookupNode g j = some m ∧ x ∈ m.children) :
    ∃ m', lookupNode (link g p c) j = some m' ∧ x ∈ m'.children := by
  obtain ⟨m, hm, hx⟩ := h
  have hk : isKey (link g p c) j = true := by
    rw [isKey_link]
    exact lookupNode_isSome_of_some g j m hm
  simp only [isKey, Option.isSome_iff_exists] at hk
  obtain ⟨m', hm'⟩ := hk
  obtain ⟨n, hn, _, _, _, _, _, hgrow, _, _⟩ := link_fields g p c j m' hm'
  rw [hm] at hn
  injection hn with hn
  subst hn
  exact ⟨m', hm', hgrow x hx⟩

theorem link_parent_stable (g : CommitGraph) (p c j : Nat) (hjc : j ≠ c) :
    (lookupNode (link g p c) j).map Node.parent
      = (lookupNode g j).map Node.parent := by
  by_cases hjp : j = p
  · subst hjp
    have hcj : c ≠ j := fun hh => hjc hh.symm
    rw [lookup_link_parent g j c hcj]
    cases lookupNode g j <;> rfl
  · rw [lookup_link_of_ne g p c j hjp hjc]

theorem foldl_preserve_mem {α β : Type} (P : α → Prop) (f : α → β → α)
    (l : List β) (hstep : ∀ a x, x ∈ l → P a → P (f a x)) :
    ∀ a, P a → P (List.foldl f a l) := by
  induction l with
  | nil => intro a ha; exact ha
  | cons x t ih =>
    intro a ha
    exact ih (fun a' y hy ha' => hstep a' y (by simp [hy]) ha') (f a x)
      (hstep a x (by simp) ha)

theorem mem_keys_of_pair (g : CommitGraph) (k : Nat) (n : Node)
    (h : (k, n) ∈ g) : k ∈ keysOf g := by
  simp only [keysOf, List.mem_map]
  exact ⟨(k, n), h, rfl⟩

theorem lookup_eq_of_mem_nodup (g : CommitGraph) (k : Nat) (n : Node)
    (hnd : (keysOf g).Nodup) (h : (k, n) ∈ g) : lookupNode g k = some n := by
  induction g with
  | nil => simp at h
  | cons kv t ih =>
    rcases List.mem_cons.mp h with h1 | h1
    · rw [← h1, lookupNode_cons, if_pos rfl]
    · have hk : kv.1 ≠ k := by
        intro hh
        have hmem : k ∈ keysOf t := mem_keys_of_pair t k n h1
        have : kv.1 ∉ keysOf t := by
          rw [show keysOf (kv :: t) = kv.1 :: keysOf t from rfl] at hnd
          exact (List.nodup_cons.mp hnd).1
        exact this (hh ▸ hmem)
      rw [lookupNode_cons, if_neg hk]
      refine ih ?_ h1
      rw [show keysOf (kv :: t) = kv.1 :: keysOf t from rfl] at hnd
      exact (List.nodup_cons.mp hnd).2

theorem lookup_master_false (acc : CommitGraph) (c : Nat)
    (hcm : (lookupNode acc c).map Node.is_master = some false) :
    isKey acc c = true := by
  cases hl : lookupNode acc c with
  | none => rw [hl] at hcm; simp at hcm
  | some m => simp [isKey, hl]

theorem LinkInv_link (g0 acc : CommitGraph) (p c : Nat)
    (h : LinkInv g0 acc) (hkp : isKey acc p = true)
    (hcm : (lookupNode acc c).map Node.is_master = some false) :
    LinkInv g0 (link acc p c) := by
  obtain ⟨hK, hS, hP, hCC, hPL, hCN⟩ := h
  refine ⟨?_, ?_, ?_, ?_, ?_, ?_⟩
  · intro j
    rw [isKey_link]
    exact hK j
  · intro j m hm
    obtain ⟨n, hn, e1, e2, e3, e4, _, _, _, _⟩ := link_fields acc p c j m hm
    obtain ⟨n0, hn0, f1, f2, f3, f4⟩ := hS j n hn
    exact ⟨n0, hn0, e1.trans f1, e2.trans f2, e3.trans f3, e4.trans f4⟩
  · intro j m hm hmast
    obtain ⟨n, hn, _, e2, _, _, hpar, _, _, _⟩ := link_fields acc p c j m hm
    rcases hpar with hpar | ⟨hjc, hpar⟩
    · rw [hpar]
      exact hP j n hn (by rw [← e2]; exact hmast)
    · exfalso
      subst hjc
      have hfalse : n.is_master = false := by
        rw [hn] at hcm
        simpa using hcm
      rw [e2, hfalse] at hmast
      exact Bool.false_ne_true hmast
  · intro j m hm x hx
    obtain ⟨n, hn, _, _, _, _, _, _, hback, _⟩ := link_fields acc p c j m hm
    rcases hback x hx with h1 | ⟨_, hxc⟩
    · rw [isKey_link]
      exact hCC j n hn x h1
    · rw [isKey_link, hxc]
      exact lookup_master_false acc c hcm
  · intro j m p' hm hpar
    obtain ⟨n, hn, _, _, _, _, hparc, _, _, _⟩ := link_fields acc p c j m hm
    rcases hparc with h1 | ⟨hjc, h2⟩
    · obtain ⟨np, hnp, hmem⟩ := hPL j n p' hn (by rw [← h1]; exact hpar)
      exact link_child_grow acc p c p' j ⟨np, hnp, hmem⟩
    · have hp' : p' = p := by
        rw [h2] at hpar
        injection hpar with hh
        exact hh.symm
      subst hp'
      subst hjc
      exact link_child_mem acc p' j hkp
  · intro j m hm
    obtain ⟨n, hn, _, _, _, _, _, _, _, hnd⟩ := link_fields acc p c j m hm
    exact hnd (hCN j n hn)

theorem master_of_skel (g0 acc : CommitGraph) (c : Nat)
    (hK : ∀ j, isKey acc j = isKey g0 j)
    (hS : ∀ j m, lookupNode acc j = some m → ∃ n, lookupNode g0 j = some n ∧
      m.commit = n.commit ∧ m.is_master = n.is_master ∧
      m.is_visible = n.is_visible ∧ m.event = n.event)
    (hc : (lookupNode g0 c).map Node.is_master = some false) :
    (lookupNode acc c).map Node.is_master = some false := by
  have hk0 : isKey g0 c = true := lookup_master_false g0 c hc
  have hk : isKey acc c = true := by rw [hK c]; exact hk0
  simp only [isKey, Option.isSome_iff_exists] at hk
  obtain ⟨m, hm⟩ := hk
  obtain ⟨n, hn, _, e2, _, _⟩ := hS c m hm
  rw [hn] at hc
  have hc2 : n.is_master = false := by
    have hsome : some n.is_master = some false := hc
    injection hsome with hh
  rw [hm]
  show some m.is_master = some false
  rw [e2, hc2]

theorem LinkInv_innerFold (g0 : CommitGraph) (c : Nat)
    (hc : (lookupNode g0 c).map Node.is_master = some false) :
    ∀ (pars : List Nat) (acc : CommitGraph), LinkInv g0 acc →
    LinkInv g0 (List.foldl (fun a p => if isKey a p then link a p c else a) acc pars) := by
  intro pars acc ha
  refine foldl_preserve (LinkInv g0) _ ?_ pars acc ha
  intro a p hla
  by_cases hk : isKey a p = true
  · rw [if_pos hk]
    exact LinkInv_link g0 a p c hla hk (master_of_skel g0 a c hla.1 hla.2.1 hc)
  · rw [if_neg hk]
    exact hla

theorem LinkInv_base (g0 : CommitGraph) (hfresh : WalkFresh g0) :
    LinkInv g0 g0 := by
  refine ⟨fun j => rfl, fun j m hm => ⟨m, hm, rfl, rfl, rfl, rfl⟩, ?_, ?_, ?_, ?_⟩
  · intro j m hm _
    exact (hfresh j m hm).1
  · intro j m hm x hx
    rw [(hfresh j m hm).2] at hx
    simp at hx
  · intro j m p hm hpar
    rw [(hfresh j m hm).1] at hpar
    simp at hpar
  · intro j m hm
    rw [(hfresh j m hm).2]
    exact List.nodup_nil

theorem LinkInv_linkAll (g0 : CommitGraph) (hnd : (keysOf g0).Nodup)
    (hfresh : WalkFresh g0) : LinkInv g0 (linkAll g0) := by
  rw [linkAll]
  refine foldl_preserve_mem (LinkInv g0) _ g0 ?_ g0 (LinkInv_base g0 hfresh)
  intro a kv hkv ha
  by_cases hm : kv.2.is_master = true
  · rw [if_pos hm]
    exact ha
  · rw [if_neg hm]
    refine LinkInv_innerFold g0 kv.1 ?_ kv.2.commit.parents a ha
    have hl : lookupNode g0 kv.1 = some kv.2 :=
      lookup_eq_of_mem_nodup g0 kv.1 kv.2 hnd hkv
    rw [hl]
    show some kv.2.is_master = some false
    rw [Bool.not_eq_true] at hm
    rw [hm]

theorem keysOf_link (g : CommitGraph) (p c : Nat) :
    keysOf (link g p c) = keysOf g := by
  rw [link, keysOf_update, keysOf_update]

theorem keysOf_linkAll (g : CommitGraph) : keysOf (linkAll g) = keysOf g := by
  rw [linkAll]
  refine foldl_preserve (fun a => keysOf a = keysOf g) _ ?_ g g rfl
  intro a kv ha
  by_cases hm : kv.2.is_master = true
  · rw [if_pos hm]
    exact ha
  · rw [if_neg hm]
    refine foldl_preserve (fun a => keysOf a = keysOf g) _ ?_ kv.2.commit.parents a ha
    intro a' p ha'
    by_cases hk : isKey a' p = true
    · rw [if_pos hk, keysOf_link]
      exact ha'
    · rw [if_neg hk]
      exact ha'

theorem build_invariants (repo : List Commit) (mbDb : MergeBaseDb)
    (replayer : EventReplayer) (masterOid fuel : Nat) (oids : List Nat) :
    ChildrenClosed (walk_from_commits repo mbDb replayer masterOid fuel oids) ∧
    ParentLinked (walk_from_commits repo mbDb replayer masterOid fuel oids) ∧
    ChildrenNodup (walk_from_commits repo mbDb replayer masterOid fuel oids) ∧
    MastersNoParent (walk_from_commits repo mbDb replayer masterOid fuel oids) ∧
    (keysOf (walk_from_commits repo mbDb replayer masterOid fuel oids)).Nodup := by
  obtain ⟨hfresh, hnd⟩ := walk_pre_fresh repo mbDb replayer masterOid fuel oids
  have hinv := LinkInv_linkAll _ hnd hfresh
  rw [walk_from_commits]
  refine ⟨hinv.2.2.2.1, hinv.2.2.2.2.1, hinv.2.2.2.2.2, hinv.2.2.1, ?_⟩
  rw [keysOf_linkAll]
  exact hnd

/-! ## Graph builder: key monotonicity and the anomaly cases -/

theorem addPath_isKey_mono (replayer : EventReplayer) (mbo : Option Nat) :
    ∀ (path : List Commit) (g : CommitGraph) (j : Nat),
    isKey g j = true → isKey (addPath replayer mbo g path) j = true := by
  intro path
  induction path with
  | nil => intro g j h; exact h
  | cons c rest ih =>
    intro g j h
    rw [addPath]
    by_cases hk : isKey g c.oid = true
    · rw [if_pos hk]; exact h
    · rw [if_neg hk]
      exact ih _ j (isKey_insert_of_isKey g c.oid j _ h)

theorem walkOne_isKey_mono (repo : List Commit) (mbDb : MergeBaseDb)
    (replayer : EventReplayer) (masterOid fuel : Nat) (g : CommitGraph)
    (oid j : Nat) (h : isKey g j = true) :
    isKey (walkOne repo mbDb replayer masterOid fuel g oid) j = true := by
  rw [walkOne]
  split
  · exact h
  · split
    · exact addPath_isKey_mono replayer none [_] g j h
    · split
      · exact h
      · exact addPath_isKey_mono replayer (some _) _ g j h

theorem addPath_head_key (replayer : EventReplayer) (mbo : Option Nat)
    (g : CommitGraph) (c : Commit) (rest : List Commit) :
    isKey (addPath replayer mbo g (c :: rest)) c.oid = true := by
  rw [addPath]
  by_cases hk : isKey g c.oid = true
  · rw [if_pos hk]; exact hk
  · rw [if_neg hk]
    refine addPath_isKey_mono replayer mbo rest _ c.oid ?_
    have := lookupNode_insert_self g c.oid (mkNode replayer mbo c)
      (by rw [Bool.not_eq_true] at hk; exact hk)
    simp [isKey, this]

theorem walkOne_mbnone_adds (repo : List Commit) (mbDb : MergeBaseDb)
    (replayer : EventReplayer) (masterOid fuel : Nat) (g : CommitGraph)
    (oid : Nat) (c : Commit) (hl : repoLookup repo oid = some c)
    (hmb : mbDb oid masterOid = none) :
    isKey (walkOne repo mbDb replayer masterOid fuel g oid) oid = true := by
  have hco : c.oid = oid := repoLookup_oid repo oid c hl
  rw [walkOne, hl]
  show isKey (match mbDb c.oid masterOid with
    | none => addPath replayer none g [c]
    | some mb =>
      match find_path_to_merge_base repo mbDb c.oid mb fuel with
      | none => g
      | some path => addPath replayer (some mb) g path) oid = true
  rw [hco, hmb]
  show isKey (addPath replayer none g [c]) oid = true
  rw [← hco]
  exact addPath_head_key replayer none g c []

theorem walk_mbnone_key (repo : List Commit) (mbDb : MergeBaseDb)
    (replayer : EventReplayer) (masterOid fuel : Nat) (oids : List Nat)
    (oid : Nat) (c : Commit) (hmem : oid ∈ oids)
    (hl : repoLookup repo oid = some c)
    (hmb : mbDb oid masterOid = none) :
    isKey (walk_from_commits repo mbDb replayer masterOid fuel oids) oid = true := by
  rw [walk_from_commits]
  have hkey : isKey (List.foldl (walkOne repo mbDb replayer masterOid fuel) [] oids)
      oid = true := by
    obtain ⟨s, t, rfl⟩ := List.append_of_mem hmem
    rw [List.foldl_append, List.foldl_cons]
    refine foldl_preserve (fun g => isKey g oid = true)
      (walkOne repo mbDb replayer masterOid fuel) ?_ t _ ?_
    · intro g o hg
      exact walkOne_isKey_mono repo mbDb replayer masterOid fuel g o oid hg
    · exact walkOne_mbnone_adds repo mbDb replayer masterOid fuel _ oid c hl hmb
  rw [isKey_iff_mem_keys] at hkey ⊢
  rw [keysOf_linkAll]
  exact hkey

/-! ## Graph builder: merge commits and the linking pass -/

theorem lookup_pair_mem (g : CommitGraph) (k : Nat) (n : Node)
    (h : lookupNode g k = some n) : (k, n) ∈ g := by
  simp only [lookupNode, Option.map_eq_some'] at h
  obtain ⟨kv, hfind, hkv⟩ := h
  have hmem := List.mem_of_find?_eq_some hfind
  have hp := List.find?_some hfind
  simp only [decide_eq_true_eq] at hp
  obtain ⟨k1, n1⟩ := kv
  simp only at hp hkv
  subst hp
  subst hkv
  exact hmem

theorem link_sets_parent (acc : CommitGraph) (p x : Nat)
    (hx : isKey acc x = true) :
    (lookupNode (link acc p x) x).map Node.parent = some (some p) := by
  simp only [isKey, Option.isSome_iff_exists] at hx
  obtain ⟨n, hn⟩ := hx
  by_cases hxp : x = p
  · subst hxp
    rw [lookup_link_self, hn]
    rfl
  · rw [lookup_link_child acc p x hxp, hn]
    rfl

theorem innerF_keys (x : Nat) :
    ∀ (pars : List Nat) (acc : CommitGraph) (j : Nat),
    isKey (List.foldl (fun a q => if isKey a q then link a q x else a) acc pars) j
      = isKey acc j := by
  intro pars
  induction pars with
  | nil => intro acc j; rfl
  | cons p ps ih =>
    intro acc j
    rw [List.foldl_cons]
    by_cases hk : isKey acc p = true
    · rw [if_pos hk, ih, isKey_link]
    · rw [if_neg hk, ih]

theorem innerF_grow (c x : Nat) :
    ∀ (pars : List Nat) (acc : CommitGraph) (p : Nat),
    (∃ m, lookupNode acc p = some m ∧ x ∈ m.children) →
    ∃ m, lookupNode
      (List.foldl (fun a q => if isKey a q then link a q c else a) acc pars) p
        = some m ∧ x ∈ m.children := by
  intro pars acc p h
  refine foldl_preserve
    (fun a => ∃ m, lookupNode a p = some m ∧ x ∈ m.children) _ ?_ pars acc h
  intro a q ha
  by_cases hk : isKey a q = true
  · rw [if_pos hk]
    exact link_child_grow a q c p x ha
  · rw [if_neg hk]
    exact ha

theorem innerF_id (x : Nat) :
    ∀ (pars : List Nat) (acc : CommitGraph),
    (∀ q ∈ pars, isKey acc q = false) →
    List.foldl (fun a q => if isKey a q then link a q x else a) acc pars = acc := by
  intro pars
  induction pars with
  | nil => intro acc _; rfl
  | cons p ps ih =>
    intro acc h
    rw [List.foldl_cons, if_neg (by rw [h p (by simp)]; exact Bool.false_ne_true)]
    exact ih acc (fun q hq => h q (by simp [hq]))

theorem innerFold_links (x : Nat) :
    ∀ (pars : List Nat) (acc : CommitGraph),
    isKey acc x = true →
    (∀ p ∈ pars, isKey acc p = true →
      ∃ np, lookupNode
        (List.foldl (fun a q => if isKey a q then link a q x else a) acc pars) p
          = some np ∧ x ∈ np.children) ∧
    ((∃ p ∈ pars, isKey acc p = true) →
      ∃ q, q ∈ pars ∧ isKey acc q = true ∧
        (lookupNode
          (List.foldl (fun a q => if isKey a q then link a q x else a) acc pars) x).map
            Node.parent = some (some q)) := by
  intro pars
  induction pars with
  | nil =>
    intro acc _
    constructor
    · intro p hp
      simp at hp
    · intro h
      simp at h
  | cons p ps ih =>
    intro acc hx
    by_cases hk : isKey acc p = true
    · constructor
      · intro p₀ hp₀ hkey
        rw [List.foldl_cons, if_pos hk]
        rcases List.mem_cons.mp hp₀ with rfl | hp₀
        · exact innerF_grow x x ps (link acc p₀ x) p₀
            (link_child_mem acc p₀ x hk)
        · have hkey' : isKey (link acc p x) p₀ = true := by
            rw [isKey_link]
            exact hkey
          exact (ih (link acc p x) (by rw [isKey_link]; exact hx)).1 p₀ hp₀ hkey'
      · intro _
        rw [List.foldl_cons, if_pos hk]
        by_cases hps : ∃ q ∈ ps, isKey acc q = true
        · obtain ⟨q0, hq0, hq0k⟩ := hps
          obtain ⟨q, hq, hqk, hqpar⟩ :=
            (ih (link acc p x) (by rw [isKey_link]; exact hx)).2
              ⟨q0, hq0, by rw [isKey_link]; exact hq0k⟩
          refine ⟨q, by simp [hq], ?_, hqpar⟩
          rw [← isKey_link acc p x q]
          exact hqk
        · push_neg at hps
          have hid : List.foldl (fun a q => if isKey a q then link a q x else a)
              (link acc p x) ps = link acc p x := by
            refine innerF_id x ps (link acc p x) ?_
            intro q hq
            rw [isKey_link]
            have := hps q hq
            cases hh : isKey acc q with
            | false => rfl
            | true => exact absurd hh this
          rw [hid]
          exact ⟨p, by simp, hk, link_sets_parent acc p x hx⟩
    · constructor
      · intro p₀ hp₀ hkey
        rw [List.foldl_cons, if_neg hk]
        rcases List.mem_cons.mp hp₀ with rfl | hp₀
        · exact absurd hkey hk
        · exact (ih acc hx).1 p₀ hp₀ hkey
      · intro hex
        rw [List.foldl_cons, if_neg hk]
        obtain ⟨q0, hq0, hq0k⟩ := hex
        rcases List.mem_cons.mp hq0 with rfl | hq0
        · exact absurd hq0k hk
        · obtain ⟨q, hq, hqk, hqpar⟩ := (ih acc hx).2 ⟨q0, hq0, hq0k⟩
          exact ⟨q, by simp [hq], hqk, hqpar⟩

theorem innerF_parent_stable (c x : Nat) (hxc : x ≠ c) :
    ∀ (pars : List Nat) (acc : CommitGraph),
    (lookupNode
      (List.foldl (fun a q => if isKey a q then link a q c else a) acc pars) x).map
        Node.parent
      = (lookupNode acc x).map Node.parent := by
  intro pars
  induction pars with
  | nil => intro acc; rfl
  | cons p ps ih =>
    intro acc
    rw [List.foldl_cons]
    by_cases hk : isKey acc p = true
    · rw [if_pos hk, ih, link_parent_stable acc p c x hxc]
    · rw [if_neg hk, ih]

theorem linkStep_preserves (g0 : CommitGraph) (hnd : (keysOf g0).Nodup)
    (kv : Nat × Node) (hkv : kv ∈ g0) (acc : CommitGraph) (ha : LinkInv g0 acc) :
    LinkInv g0 (if kv.2.is_master then acc
      else List.foldl (fun a p => if isKey a p then link a p kv.1 else a)
        acc kv.2.commit.parents) := by
  by_cases hm : kv.2.is_master = true
  · rw [if_pos hm]
    exact ha
  · rw [if_neg hm]
    refine LinkInv_innerFold g0 kv.1 ?_ kv.2.commit.parents acc ha
    have hl : lookupNode g0 kv.1 = some kv.2 :=
      lookup_eq_of_mem_nodup g0 kv.1 kv.2 hnd hkv
    rw [hl]
    show some kv.2.is_master = some false
    rw [Bool.not_eq_true] at hm
    rw [hm]

theorem linkAll_multi_parent (g0 : CommitGraph) (hfresh : WalkFresh g0)
    (hnd : (keysOf g0).Nodup) (x : Nat) (nx : Node)
    (hlx : lookupNode (linkAll g0) x = some nx) (hnm : nx.is_master = false) :
    (∀ p, p ∈ nx.commit.parents → isKey (linkAll g0) p = true →
      ∃ np, lookupNode (linkAll g0) p = some np ∧ x ∈ np.children) ∧
    ((∃ p, p ∈ nx.commit.parents ∧ isKey (linkAll g0) p = true) →
      ∃ q, q ∈ nx.commit.parents ∧ isKey (linkAll g0) q = true ∧
        nx.parent = some q) := by
  have hinv := LinkInv_linkAll g0 hnd hfresh
  obtain ⟨nx0, hnx0, hc0, hm0, _, _⟩ := hinv.2.1 x nx hlx
  have hpair : (x, nx0) ∈ g0 := lookup_pair_mem g0 x nx0 hnx0
  obtain ⟨s, t, hsplit⟩ := List.append_of_mem hpair
  subst hsplit
  have hxt : ∀ kv ∈ t, kv.1 ≠ x := by
    intro kv hkv heq
    have hnd2 : (keysOf (s ++ (x, nx0) :: t)).Nodup := hnd
    have hkeq : keysOf (s ++ (x, nx0) :: t) = keysOf s ++ x :: keysOf t := by
      simp [keysOf]
    rw [hkeq] at hnd2
    have h2 : (x :: keysOf t).Nodup := (List.nodup_append.mp hnd2).2.1
    have h3 : x ∉ keysOf t := (List.nodup_cons.mp h2).1
    exact h3 (heq ▸ mem_keys_of_pair t kv.1 kv.2 hkv)
  have hxkey : isKey (s ++ (x, nx0) :: t) x = true :=
    isKey_of_mem_keys _ x (mem_keys_of_pair _ x nx0 hpair)
  -- decompose the linking fold at the item for x
  have hdec : linkAll (s ++ (x, nx0) :: t)
      = List.foldl
          (fun acc kv =>
            if kv.2.is_master then acc
            else List.foldl (fun a p => if isKey a p then link a p kv.1 else a)
              acc kv.2.commit.parents)
          ((fun acc kv =>
            if kv.2.is_master then acc
            else List.foldl (fun a p => if isKey a p then link a p kv.1 else a)
              acc kv.2.commit.parents)
            (List.foldl
              (fun acc kv =>
                if kv.2.is_master then acc
                else List.foldl (fun a p => if isKey a p then link a p kv.1 else a)
                  acc kv.2.commit.parents)
              (s ++ (x, nx0) :: t) s)
            (x, nx0))
          t := by
    rw [linkAll, List.foldl_append, List.foldl_cons]
  have hnm0 : nx0.is_master = false := by rw [← hm0]; exact hnm
  -- the prefix fold keeps the key set and the skeleton
  have hinvA : LinkInv (s ++ (x, nx0) :: t)
      (List.foldl
        (fun acc kv =>
          if kv.2.is_master then acc
          else List.foldl (fun a p => if isKey a p then link a p kv.1 else a)
            acc kv.2.commit.parents)
        (s ++ (x, nx0) :: t) s) := by
    refine foldl_preserve_mem (LinkInv (s ++ (x, nx0) :: t)) _ s ?_ _
      (LinkInv_base _ hfresh)
    intro a kv hkv ha
    exact linkStep_preserves _ hnd kv (by simp [hkv]) a ha
  set A := List.foldl
      (fun acc kv =>
        if kv.2.is_master then acc
        else List.foldl (fun a p => if isKey a p then link a p kv.1 else a)
          acc kv.2.commit.parents)
      (s ++ (x, nx0) :: t) s with hA
  have hxkeyA : isKey A x = true := by
    rw [hinvA.1 x]
    exact hxkey
  -- the item step for x links every in-graph parent
  have hstep : (fun (acc : CommitGraph) (kv : Nat × Node) =>
      if kv.2.is_master then acc
      else List.foldl (fun a p => if isKey a p then link a p kv.1 else a)
        acc kv.2.commit.parents) A (x, nx0)
      = List.foldl (fun a p => if isKey a p then link a p x else a)
          A nx0.commit.parents := by
    show (if nx0.is_master then A
      else List.foldl (fun a p => if isKey a p then link a p x else a)
        A nx0.commit.parents) = _
    rw [hnm0]
    simp
  obtain ⟨hi, hii⟩ := innerFold_links x nx0.commit.parents A hxkeyA
  constructor
  · intro p hp hkeyp
    have hkeyA : isKey A p = true := by
      rw [hinvA.1 p, ← hinv.1 p]
      exact hkeyp
    have hp0 : p ∈ nx0.commit.parents := by rw [← hc0]; exact hp
    obtain ⟨np, hnp, hmem⟩ := hi p hp0 hkeyA
    -- transport through the remaining items
    have hfinal : ∃ np, lookupNode (linkAll (s ++ (x, nx0) :: t)) p = some np ∧
        x ∈ np.children := by
      rw [hdec, hstep]
      refine foldl_preserve
        (fun a => ∃ np, lookupNode a p = some np ∧ x ∈ np.children) _ ?_ t _
        ⟨np, hnp, hmem⟩
      intro a kv ha
      by_cases hm : kv.2.is_master = true
      · rw [if_pos hm]
        exact ha
      · rw [if_neg hm]
        exact innerF_grow kv.1 x kv.2.commit.parents a p ha
    exact hfinal
  · intro hex
    obtain ⟨p, hp, hkeyp⟩ := hex
    have hkeyA : isKey A p = true := by
      rw [hinvA.1 p, ← hinv.1 p]
      exact hkeyp
    have hp0 : p ∈ nx0.commit.parents := by rw [← hc0]; exact hp
    obtain ⟨q, hq, hqk, hqpar⟩ := hii ⟨p, hp0, hkeyA⟩
    have hfinal : (lookupNode (linkAll (s ++ (x, nx0) :: t)) x).map Node.parent
        = some (some q) := by
      rw [hdec, hstep]
      refine foldl_preserve_mem
        (fun a => (lookupNode a x).map Node.parent = some (some q)) _ t ?_ _ hqpar
      intro a kv hkvt ha
      by_cases hm : kv.2.is_master = true
      · rw [if_pos hm]
        exact ha
      · rw [if_neg hm]
        rw [innerF_parent_stable kv.1 x (fun hh => hxt kv hkvt hh.symm)
          kv.2.commit.parents a]
        exact ha
    refine ⟨q, by rw [hc0]; exact hq, ?_, ?_⟩
    · rw [hinv.1 q, ← hinvA.1 q]
      exact hqk
    · rw [hlx] at hfinal
      have : some nx.parent = some (some q) := hfinal
      injection this

/-! ## Visibility pruner: basic lemmas -/

theorem hideAll_nil (g : CommitGraph) (unh : List Nat) (fuel : Nat) :
    hideAll g unh fuel [] = Except.ok true := rfl

theorem hideAll_cons (g : CommitGraph) (unh : List Nat) (fuel c : Nat)
    (cs : List Nat) :
    hideAll g unh fuel (c :: cs) =
      match shouldHide g unh fuel c with
      | Except.error e => Except.error e
      | Except.ok true => hideAll g unh fuel cs
      | Except.ok false => Except.ok false := rfl

theorem hideAllMaster_nil (g : CommitGraph) (unh : List Nat) (fuel : Nat) :
    hideAllMaster g unh fuel [] = Except.ok true := rfl

theorem hideAllMaster_cons (g : CommitGraph) (unh : List Nat) (fuel c : Nat)
    (cs : List Nat) :
    hideAllMaster g unh fuel (c :: cs) =
      match lookupNode g c with
      | none => Except.error ()
      | some cn =>
        if cn.is_master then hideAllMaster g unh fuel cs
        else
          match shouldHide g unh fuel c with
          | Except.error e => Except.error e
          | Except.ok true => hideAllMaster g unh fuel cs
          | Except.ok false => Except.ok false := rfl

theorem shouldHide_unh_ne_true (g : CommitGraph) (unh : List Nat) (f oid : Nat)
    (h : oid ∈ unh) : shouldHide g unh f oid ≠ Except.ok true := by
  cases f with
  | zero => rw [shouldHide]; intro hh; cases hh
  | succ f0 =>
    rw [shouldHide, if_pos h]
    intro hh
    cases hh

theorem shouldHide_mono (g : CommitGraph) (unh : List Nat) :
    ∀ (f : Nat),
    (∀ (f' oid : Nat) (v : Bool), f ≤ f' →
      shouldHide g unh f oid = Except.ok v → shouldHide g unh f' oid = Except.ok v) ∧
    (∀ (f' : Nat) (l : List Nat) (v : Bool), f ≤ f' →
      hideAll g unh f l = Except.ok v → hideAll g unh f' l = Except.ok v) ∧
    (∀ (f' : Nat) (l : List Nat) (v : Bool), f ≤ f' →
      hideAllMaster g unh f l = Except.ok v →
        hideAllMaster g unh f' l = Except.ok v) := by
  intro f
  induction f using Nat.strong_induction_on with
  | _ f ih =>
    have hSH : ∀ (f' oid : Nat) (v : Bool), f ≤ f' →
        shouldHide g unh f oid = Except.ok v →
        shouldHide g unh f' oid = Except.ok v := by
      intro f' oid v hle h
      match f, f' with
      | 0, _ => rw [shouldHide] at h; cases h
      | f0 + 1, 0 => omega
      | f0 + 1, f1 + 1 =>
        have hle0 : f0 ≤ f1 := by omega
        rw [shouldHide] at h ⊢
        by_cases hu : oid ∈ unh
        · rw [if_pos hu] at h ⊢
          exact h
        · rw [if_neg hu] at h ⊢
          cases hg : lookupNode g oid with
          | none =>
            rw [hg] at h
            exact Except.noConfusion h
          | some node =>
            rw [hg] at h
            have h2 : (if node.is_master = true then
                (if node.is_visible = true then hideAllMaster g unh f0 node.children
                 else Except.ok false)
              else (if node.is_visible = true then Except.ok false
                 else hideAll g unh f0 node.children)) = Except.ok v := h
            show (if node.is_master = true then
                (if node.is_visible = true then hideAllMaster g unh f1 node.children
                 else Except.ok false)
              else (if node.is_visible = true then Except.ok false
                 else hideAll g unh f1 node.children)) = Except.ok v
            by_cases hm : node.is_master = true
            · rw [if_pos hm] at h2 ⊢
              by_cases hv : node.is_visible = true
              · rw [if_pos hv] at h2 ⊢
                exact (ih f0 (by omega)).2.2 f1 node.children v hle0 h2
              · rw [if_neg hv] at h2 ⊢
                exact h2
            · rw [if_neg hm] at h2 ⊢
              by_cases hv : node.is_visible = true
              · rw [if_pos hv] at h2 ⊢
                exact h2
              · rw [if_neg hv] at h2 ⊢
                exact (ih f0 (by omega)).2.1 f1 node.children v hle0 h2
    refine ⟨hSH, ?_, ?_⟩
    · intro f' l v hle h
      induction l with
      | nil => rw [hideAll_nil] at h ⊢; exact h
      | cons c cs ihl =>
        rw [hideAll_cons] at h ⊢
        cases hc : shouldHide g unh f c with
        | error e => rw [hc] at h; cases h
        | ok b =>
          rw [hc] at h
          rw [hSH f' c b hle hc]
          cases b with
          | true => exact ihl h
          | false => exact h
    · intro f' l v hle h
      induction l with
      | nil => rw [hideAllMaster_nil] at h ⊢; exact h
      | cons c cs ihl =>
        rw [hideAllMaster_cons] at h ⊢
        cases hg : lookupNode g c with
        | none =>
          rw [hg] at h
          exact Except.noConfusion h
        | some cn =>
          rw [hg] at h
          have h2 : (if cn.is_master = true then hideAllMaster g unh f cs
            else match shouldHide g unh f c with
              | Except.error e => Except.error e
              | Except.ok true => hideAllMaster g unh f cs
              | Except.ok false => Except.ok false) = Except.ok v := h
          show (if cn.is_master = true then hideAllMaster g unh f' cs
            else match shouldHide g unh f' c with
              | Except.error e => Except.error e
              | Except.ok true => hideAllMaster g unh f' cs
              | Except.ok false => Except.ok false) = Except.ok v
          by_cases hm : cn.is_master = true
          · rw [if_pos hm] at h2 ⊢
            exact ihl h2
          · rw [if_neg hm] at h2 ⊢
            cases hc : shouldHide g unh f c with
            | error e => rw [hc] at h2; exact Except.noConfusion h2
            | ok b =>
              rw [hc] at h2
              rw [hSH f' c b hle hc]
              cases b with
              | true => exact ihl h2
              | false => exact h2

theorem shouldHide_agree (g : CommitGraph) (unh : List Nat) (f f' oid : Nat)
    (v v' : Bool) (h : shouldHide g unh f oid = Except.ok v)
    (h' : shouldHide g unh f' oid = Except.ok v') : v = v' := by
  rcases Nat.le_total f f' with hle | hle
  · have hh := (shouldHide_mono g unh f).1 f' oid v hle h
    rw [hh] at h'
    exact Except.ok.inj h'
  · have hh := (shouldHide_mono g unh f').1 f oid v' hle h'
    rw [hh] at h
    exact (Except.ok.inj h).symm

/-! ## Visibility pruner: removal lemmas -/

theorem isKey_removeOne (g : CommitGraph) (k j : Nat) :
    isKey (removeOne g k) j = true ↔ isKey g j = true ∧ j ≠ k := by
  rw [removeOne]
  cases hg : lookupNode g k with
  | none =>
    constructor
    · intro h
      refine ⟨h, ?_⟩
      intro hh
      subst hh
      simp [isKey, hg] at h
    · intro h
      exact h.1
  | some node =>
    have herase : ∀ j, isKey (eraseKey g k) j = true ↔ isKey g j = true ∧ j ≠ k := by
      intro j
      by_cases hj : j = k
      · subst hj
        simp [isKey, lookupNode_erase_self]
      · simp [isKey, lookupNode_erase_other g k j hj, hj]
    show isKey (match node.parent with
      | none => eraseKey g k
      | some p =>
        if isKey (eraseKey g k) p = true then
          updateNode (eraseKey g k) p
            (fun n => { n with children := n.children.erase k })
        else eraseKey g k) j = true ↔ isKey g j = true ∧ j ≠ k
    cases node.parent with
    | none => exact herase j
    | some p =>
      show isKey (if isKey (eraseKey g k) p = true then
          updateNode (eraseKey g k) p
            (fun n => { n with children := n.children.erase k })
        else eraseKey g k) j = true ↔ isKey g j = true ∧ j ≠ k
      by_cases hp : isKey (eraseKey g k) p = true
      · rw [if_pos hp]
        rw [isKey_update]
        exact herase j
      · rw [if_neg hp]
        exact herase j

theorem isKey_removeOids : ∀ (L : List Nat) (g : CommitGraph) (j : Nat),
    isKey (removeOids g L) j = true ↔ isKey g j = true ∧ j ∉ L := by
  intro L
  induction L with
  | nil =>
    intro g j
    simp [removeOids]
  | cons k L' ih =>
    intro g j
    rw [show removeOids g (k :: L') = removeOids (removeOne g k) L' from rfl]
    rw [ih (removeOne g k) j, isKey_removeOne]
    constructor
    · rintro ⟨⟨h1, h2⟩, h3⟩
      exact ⟨h1, by simp [h2, h3]⟩
    · rintro ⟨h1, h2⟩
      simp only [List.mem_cons] at h2
      push_neg at h2
      exact ⟨⟨h1, h2.1⟩, h2.2⟩

theorem removeOne_other (g : CommitGraph) (k j : Nat) (n : Node)
    (hj : j ≠ k) (h : lookupNode g j = some n) :
    ∃ n', lookupNode (removeOne g k) j = some n' ∧
      n'.commit = n.commit ∧ n'.parent = n.parent ∧ n'.is_master = n.is_master ∧
      n'.is_visible = n.is_visible ∧ n'.event = n.event ∧
      (n'.children = n.children ∨ n'.children = n.children.erase k) := by
  rw [removeOne]
  cases hg : lookupNode g k with
  | none => exact ⟨n, h, rfl, rfl, rfl, rfl, rfl, Or.inl rfl⟩
  | some node =>
    have herase : lookupNode (eraseKey g k) j = some n := by
      rw [lookupNode_erase_other g k j hj]
      exact h
    show ∃ n', lookupNode (match node.parent with
      | none => eraseKey g k
      | some p =>
        if isKey (eraseKey g k) p = true then
          updateNode (eraseKey g k) p
            (fun n => { n with children := n.children.erase k })
        else eraseKey g k) j = some n' ∧
      n'.commit = n.commit ∧ n'.parent = n.parent ∧ n'.is_master = n.is_master ∧
      n'.is_visible = n.is_visible ∧ n'.event = n.event ∧
      (n'.children = n.children ∨ n'.children = n.children.erase k)
    cases node.parent with
    | none => exact ⟨n, herase, rfl, rfl, rfl, rfl, rfl, Or.inl rfl⟩
    | some p =>
      show ∃ n', lookupNode (if isKey (eraseKey g k) p = true then
          updateNode (eraseKey g k) p
            (fun n => { n with children := n.children.erase k })
        else eraseKey g k) j = some n' ∧
        n'.commit = n.commit ∧ n'.parent = n.parent ∧ n'.is_master = n.is_master ∧
        n'.is_visible = n.is_visible ∧ n'.event = n.event ∧
        (n'.children = n.children ∨ n'.children = n.children.erase k)
      by_cases hp : isKey (eraseKey g k) p = true
      · rw [if_pos hp]
        by_cases hjp : j = p
        · subst hjp
          rw [lookupNode_update_self, herase]
          exact ⟨_, rfl, rfl, rfl, rfl, rfl, rfl, Or.inr rfl⟩
        · rw [lookupNode_update_other _ _ _ _ hjp, herase]
          exact ⟨n, rfl, rfl, rfl, rfl, rfl, rfl, Or.inl rfl⟩
      · rw [if_neg hp]
        exact ⟨n, herase, rfl, rfl, rfl, rfl, rfl, Or.inl rfl⟩

theorem removeOids_rel : ∀ (L : List Nat) (g : CommitGraph) (j : Nat) (n : Node),
    lookupNode g j = some n → j ∉ L →
    ∃ n', lookupNode (removeOids g L) j = some n' ∧
      n'.commit = n.commit ∧ n'.parent = n.parent ∧ n'.is_master = n.is_master ∧
      n'.is_visible = n.is_visible ∧ n'.event = n.event ∧
      n'.children.Sublist n.children ∧
      (∀ x ∈ n.children, x ∉ L → x ∈ n'.children) := by
  intro L
  induction L with
  | nil =>
    intro g j n h _
    exact ⟨n, h, rfl, rfl, rfl, rfl, rfl, List.Sublist.refl _, fun x hx _ => hx⟩
  | cons k L' ih =>
    intro g j n h hj
    simp only [List.mem_cons] at hj
    push_neg at hj
    obtain ⟨n1, h1, e1, e2, e3, e4, e5, hch⟩ :=
      removeOne_other g k j n hj.1 h
    obtain ⟨n', h', f1, f2, f3, f4, f5, hsub, hret⟩ :=
      ih (removeOne g k) j n1 h1 hj.2
    refine ⟨n', h', f1.trans e1, f2.trans e2, f3.trans e3, f4.trans e4,
      f5.trans e5, ?_, ?_⟩
    · rcases hch with hch | hch
      · rw [hch] at hsub
        exact hsub
      · rw [hch] at hsub
        exact hsub.trans (List.erase_sublist k n.children)
    · intro x hx hxL
      simp only [List.mem_cons] at hxL
      push_neg at hxL
      refine hret x ?_ hxL.2
      rcases hch with hch | hch
      · rw [hch]
        exact hx
      · rw [hch]
        exact (List.mem_erase_of_ne hxL.1).mpr hx

/-! ## Visibility pruner: the collection pass -/

theorem collect_ok_all (g : CommitGraph) (unh : List Nat) (fuel : Nat) :
    ∀ (ks l : List Nat), collectHideList g unh fuel ks = Except.ok l →
    ∀ k ∈ ks, ∃ v, shouldHide g unh fuel k = Except.ok v := by
  intro ks
  induction ks with
  | nil => intro l _ k hk; simp at hk
  | cons k0 ks' ih =>
    intro l h k hk
    rw [collectHideList] at h
    cases hc : shouldHide g unh fuel k0 with
    | error e => rw [hc] at h; cases h
    | ok b =>
      rw [hc] at h
      cases hrest : collectHideList g unh fuel ks' with
      | error e => rw [hrest] at h; cases h
      | ok l' =>
        rcases List.mem_cons.mp hk with rfl | hk'
        · exact ⟨b, hc⟩
        · exact ih l' hrest k hk'

theorem collect_mem_iff (g : CommitGraph) (unh : List Nat) (fuel : Nat) :
    ∀ (ks l : List Nat), collectHideList g unh fuel ks = Except.ok l →
    ∀ k, k ∈ l ↔ k ∈ ks ∧ shouldHide g unh fuel k = Except.ok true := by
  intro ks
  induction ks with
  | nil =>
    intro l h k
    rw [collectHideList] at h
    cases h
    simp
  | cons k0 ks' ih =>
    intro l h k
    rw [collectHideList] at h
    cases hc : shouldHide g unh fuel k0 with
    | error e => rw [hc] at h; cases h
    | ok b =>
      rw [hc] at h
      cases hrest : collectHideList g unh fuel ks' with
      | error e => rw [hrest] at h; cases h
      | ok l' =>
        rw [hrest] at h
        cases h
        have hih := ih l' hrest
        cases b with
        | true =>
          constructor
          · intro hk
            rcases List.mem_cons.mp hk with rfl | hk'
            · exact ⟨by simp, hc⟩
            · obtain ⟨h1, h2⟩ := (hih k).mp hk'
              exact ⟨by simp [h1], h2⟩
          · rintro ⟨h1, h2⟩
            rcases List.mem_cons.mp h1 with rfl | h1'
            · simp
            · simp [(hih k).mpr ⟨h1', h2⟩]
        | false =>
          constructor
          · intro hk
            obtain ⟨h1, h2⟩ := (hih k).mp hk
            exact ⟨by simp [h1], h2⟩
          · rintro ⟨h1, h2⟩
            rcases List.mem_cons.mp h1 with rfl | h1'
            · rw [hc] at h2
              injection h2 with h3
              cases h3
            · exact (hih k).mpr ⟨h1', h2⟩

/-! ## Visibility pruner: what survives one prune is not hidden by the next -/

theorem survive_not_hidden (g1 : CommitGraph) (unh : List Nat) (F : Nat)
    (L : List Nat)
    (hAllOk : ∀ k ∈ keysOf g1, ∃ v, shouldHide g1 unh F k = Except.ok v)
    (hLmem : ∀ k, k ∈ L ↔ k ∈ keysOf g1 ∧ shouldHide g1 unh F k = Except.ok true)
    (hCC : ChildrenClosed g1) (hCN : ChildrenNodup g1) :
    ∀ (f : Nat),
    (∀ x, x ∈ keysOf g1 → x ∉ L → shouldHide g1 unh f x = Except.ok false →
      shouldHide (removeOids g1 L) unh f x ≠ Except.ok true) ∧
    (∀ (l l' : List Nat), (∀ y ∈ l, y ∈ keysOf g1) → l.Nodup → l'.Sublist l →
      (∀ y ∈ l, y ∉ L → y ∈ l') →
      hideAll g1 unh f l = Except.ok false →
      hideAll (removeOids g1 L) unh f l' ≠ Except.ok true) ∧
    (∀ (l l' : List Nat), (∀ y ∈ l, y ∈ keysOf g1) → l.Nodup → l'.Sublist l →
      (∀ y ∈ l, y ∉ L → y ∈ l') →
      hideAllMaster g1 unh f l = Except.ok false →
      hideAllMaster (removeOids g1 L) unh f l' ≠ Except.ok true) := by
  have hLnotunh : ∀ y, y ∈ L → y ∉ unh := by
    intro y hy hu
    exact shouldHide_unh_ne_true g1 unh F y hu ((hLmem y).mp hy).2
  have hNone : ∀ y, y ∈ L → lookupNode (removeOids g1 L) y = none := by
    intro y hy
    cases hl : lookupNode (removeOids g1 L) y with
    | none => rfl
    | some m =>
      exfalso
      have hk : isKey (removeOids g1 L) y = true := by simp [isKey, hl]
      exact ((isKey_removeOids L g1 y).mp hk).2 hy
  have hRemErr : ∀ (y f : Nat), y ∈ L →
      shouldHide (removeOids g1 L) unh f y = Except.error () := by
    intro y f hy
    cases f with
    | zero => rw [shouldHide]
    | succ f0 =>
      rw [shouldHide, if_neg (hLnotunh y hy), hNone y hy]
  have hvrem : ∀ y, y ∈ keysOf g1 → ∀ f v,
      shouldHide g1 unh f y = Except.ok v → (y ∈ L ↔ v = true) := by
    intro y hy f v hv
    obtain ⟨v', hv'⟩ := hAllOk y hy
    have hvv := shouldHide_agree g1 unh f F y v v' hv hv'
    subst hvv
    constructor
    · intro hyL
      have h2 := ((hLmem y).mp hyL).2
      rw [hv'] at h2
      exact Except.ok.inj h2
    · intro hvt
      refine (hLmem y).mpr ⟨hy, ?_⟩
      rw [hvt] at hv'
      exact hv'
  intro f
  induction f using Nat.strong_induction_on with
  | _ f ih =>
    have hSURV : ∀ x, x ∈ keysOf g1 → x ∉ L →
        shouldHide g1 unh f x = Except.ok false →
        shouldHide (removeOids g1 L) unh f x ≠ Except.ok true := by
      intro x hxk hxL hok
      cases f with
      | zero =>
        rw [shouldHide] at hok
        exact Except.noConfusion hok
      | succ f0 =>
        rw [shouldHide] at hok ⊢
        by_cases hu : x ∈ unh
        · rw [if_pos hu] at hok ⊢
          intro hh
          exact Bool.noConfusion (Except.ok.inj hh)
        · rw [if_neg hu] at hok ⊢
          cases hg : lookupNode g1 x with
          | none =>
            rw [hg] at hok
            exact Except.noConfusion hok
          | some n =>
            rw [hg] at hok
            have h2 : (if n.is_master = true then
                (if n.is_visible = true then hideAllMaster g1 unh f0 n.children
                 else Except.ok false)
              else (if n.is_visible = true then Except.ok false
                 else hideAll g1 unh f0 n.children)) = Except.ok false := hok
            obtain ⟨n', hn', ec, ep, em, ev, ee, hsub, hret⟩ :=
              removeOids_rel L g1 x n hg hxL
            rw [hn']
            intro hcon
            have h3 : (if n'.is_master = true then
                (if n'.is_visible = true then
                  hideAllMaster (removeOids g1 L) unh f0 n'.children
                 else Except.ok false)
              else (if n'.is_visible = true then Except.ok false
                 else hideAll (removeOids g1 L) unh f0 n'.children))
                = Except.ok true := hcon
            rw [em, ev] at h3
            have helems : ∀ y ∈ n.children, y ∈ keysOf g1 := by
              intro y hy
              exact mem_keys_of_isKey g1 y (hCC x n hg y hy)
            have hnodup : n.children.Nodup := hCN x n hg
            by_cases hm : n.is_master = true
            · rw [if_pos hm] at h2 h3
              by_cases hv : n.is_visible = true
              · rw [if_pos hv] at h2 h3
                exact (ih f0 (by omega)).2.2 n.children n'.children
                  helems hnodup hsub hret h2 h3
              · rw [if_neg hv] at h3
                exact Bool.noConfusion (Except.ok.inj h3)
            · rw [if_neg hm] at h2 h3
              by_cases hv : n.is_visible = true
              · rw [if_pos hv] at h3
                exact Bool.noConfusion (Except.ok.inj h3)
              · rw [if_neg hv] at h2 h3
                exact (ih f0 (by omega)).2.1 n.children n'.children
                  helems hnodup hsub hret h2 h3
    have hA : ∀ (l l' : List Nat), (∀ y ∈ l, y ∈ keysOf g1) → l.Nodup →
        l'.Sublist l → (∀ y ∈ l, y ∉ L → y ∈ l') →
        hideAll g1 unh f l = Except.ok false →
        hideAll (removeOids g1 L) unh f l' ≠ Except.ok true := by
      intro l
      induction l with
      | nil =>
        intro l' _ _ _ _ hfalse
        rw [hideAll_nil] at hfalse
        exact Bool.noConfusion (Except.ok.inj hfalse)
      | cons y tl ihl =>
        intro l' helems hnodup hsub hret hfalse
        rw [hideAll_cons] at hfalse
        cases hy : shouldHide g1 unh f y with
        | error e =>
          rw [hy] at hfalse
          exact Except.noConfusion hfalse
        | ok b =>
          rw [hy] at hfalse
          have hykeys : y ∈ keysOf g1 := helems y (by simp)
          cases b with
          | true =>
            have hyL : y ∈ L := (hvrem y hykeys f true hy).mpr rfl
            have hfalse2 : hideAll g1 unh f tl = Except.ok false := hfalse
            cases hsub with
            | cons a h =>
              refine ihl l' (fun z hz => helems z (by simp [hz]))
                (List.nodup_cons.mp hnodup).2 h ?_ hfalse2
              intro z hz hzL
              exact hret z (by simp [hz]) hzL
            | cons₂ a h =>
              intro hcon
              rw [hideAll_cons, hRemErr y f hyL] at hcon
              exact Except.noConfusion hcon
          | false =>
            have hyL : y ∉ L := by
              intro hyL
              exact Bool.noConfusion ((hvrem y hykeys f false hy).mp hyL)
            have hyl' : y ∈ l' := hret y (by simp) hyL
            cases hsub with
            | cons a h =>
              exact absurd (h.subset hyl') (List.nodup_cons.mp hnodup).1
            | cons₂ a h =>
              intro hcon
              rw [hideAll_cons] at hcon
              cases hy2 : shouldHide (removeOids g1 L) unh f y with
              | error e =>
                rw [hy2] at hcon
                exact Except.noConfusion hcon
              | ok b2 =>
                rw [hy2] at hcon
                cases b2 with
                | true => exact hSURV y hykeys hyL hy hy2
                | false => exact Bool.noConfusion (Except.ok.inj hcon)
    have hAM : ∀ (l l' : List Nat), (∀ y ∈ l, y ∈ keysOf g1) → l.Nodup →
        l'.Sublist l → (∀ y ∈ l, y ∉ L → y ∈ l') →
        hideAllMaster g1 unh f l = Except.ok false →
        hideAllMaster (removeOids g1 L) unh f l' ≠ Except.ok true := by
      intro l
      induction l with
      | nil =>
        intro l' _ _ _ _ hfalse
        rw [hideAllMaster_nil] at hfalse
        exact Bool.noConfusion (Except.ok.inj hfalse)
      | cons y tl ihl =>
        intro l' helems hnodup hsub hret hfalse
        rw [hideAllMaster_cons] at hfalse
        cases hgy : lookupNode g1 y with
        | none =>
          rw [hgy] at hfalse
          exact Except.noConfusion hfalse
        | some ny =>
          rw [hgy] at hfalse
          have hfalse2 : (if ny.is_master = true then hideAllMaster g1 unh f tl
            else match shouldHide g1 unh f y with
              | Except.error e => Except.error e
              | Except.ok true => hideAllMaster g1 unh f tl
              | Except.ok false => Except.ok false) = Except.ok false := hfalse
          have hykeys : y ∈ keysOf g1 := helems y (by simp)
          have htl : ∀ z ∈ tl, z ∈ keysOf g1 := fun z hz => helems z (by simp [hz])
          have htlnodup : tl.Nodup := (List.nodup_cons.mp hnodup).2
          by_cases hm : ny.is_master = true
          · rw [if_pos hm] at hfalse2
            by_cases hyL : y ∈ L
            · cases hsub with
              | cons a h =>
                refine ihl l' htl htlnodup h ?_ hfalse2
                intro z hz hzL
                exact hret z (by simp [hz]) hzL
              | cons₂ a h =>
                intro hcon
                rw [hideAllMaster_cons, hNone y hyL] at hcon
                exact Except.noConfusion hcon
            · have hyl' : y ∈ l' := hret y (by simp) hyL
              cases hsub with
              | cons a h =>
                exact absurd (h.subset hyl') (List.nodup_cons.mp hnodup).1
              | cons₂ a h =>
                rename_i r
                intro hcon
                rw [hideAllMaster_cons] at hcon
                obtain ⟨n', hn', _, _, em, _, _, _, _⟩ :=
                  removeOids_rel L g1 y ny hgy hyL
                rw [hn'] at hcon
                have hcon2 : (if n'.is_master = true then
                    hideAllMaster (removeOids g1 L) unh f r
                  else match shouldHide (removeOids g1 L) unh f y with
                    | Except.error e => Except.error e
                    | Except.ok true => hideAllMaster (removeOids g1 L) unh f r
                    | Except.ok false => Except.ok false) = Except.ok true := hcon
                rw [em, if_pos hm] at hcon2
                refine ihl r htl htlnodup h ?_ hfalse2 hcon2
                intro z hz hzL
                have hzl' : z ∈ y :: r := hret z (by simp [hz]) hzL
                rcases List.mem_cons.mp hzl' with rfl | hzr
                · exact absurd hz (List.nodup_cons.mp hnodup).1
                · exact hzr
          · rw [if_neg hm] at hfalse2
            cases hy : shouldHide g1 unh f y with
            | error e =>
              rw [hy] at hfalse2
              exact Except.noConfusion hfalse2
            | ok b =>
              rw [hy] at hfalse2
              cases b with
              | true =>
                have hyL : y ∈ L := (hvrem y hykeys f true hy).mpr rfl
                have hfalse3 : hideAllMaster g1 unh f tl = Except.ok false := hfalse2
                cases hsub with
                | cons a h =>
                  refine ihl l' htl htlnodup h ?_ hfalse3
                  intro z hz hzL
                  exact hret z (by simp [hz]) hzL
                | cons₂ a h =>
                  intro hcon
                  rw [hideAllMaster_cons, hNone y hyL] at hcon
                  exact Except.noConfusion hcon
              | false =>
                have hyL : y ∉ L := by
                  intro hyL
                  exact Bool.noConfusion ((hvrem y hykeys f false hy).mp hyL)
                have hyl' : y ∈ l' := hret y (by simp) hyL
                cases hsub with
                | cons a h =>
                  exact absurd (h.subset hyl') (List.nodup_cons.mp hnodup).1
                | cons₂ a h =>
                  rename_i r
                  intro hcon
                  rw [hideAllMaster_cons] at hcon
                  obtain ⟨n', hn', _, _, em, _, _, _, _⟩ :=
                    removeOids_rel L g1 y ny hgy hyL
                  rw [hn'] at hcon
                  have hcon2 : (if n'.is_master = true then
                      hideAllMaster (removeOids g1 L) unh f r
                    else match shouldHide (removeOids g1 L) unh f y with
                      | Except.error e => Except.error e
                      | Except.ok true => hideAllMaster (removeOids g1 L) unh f r
                      | Except.ok false => Except.ok false) = Except.ok true := hcon
                  rw [em, if_neg hm] at hcon2
                  cases hy2 : shouldHide (removeOids g1 L) unh f y with
                  | error e =>
                    rw [hy2] at hcon2
                    exact Except.noConfusion hcon2
                  | ok b2 =>
                    rw [hy2] at hcon2
                    cases b2 with
                    | true => exact hSURV y hykeys hyL hy hy2
                    | false => exact Bool.noConfusion (Except.ok.inj hcon2)
    exact ⟨hSURV, hA, hAM⟩

theorem hide_commits_second_run (g1 : CommitGraph) (b : List Nat) (h fuel : Nat)
    (g2 : CommitGraph) (hCC : ChildrenClosed g1) (hCN : ChildrenNodup g1)
    (hrun : hide_commits g1 b h fuel = Except.ok g2) :
    hide_commits g2 b h fuel = Except.error () ∨
      hide_commits g2 b h fuel = Except.ok g2 := by
  rw [hide_commits] at hrun
  cases hcol : collectHideList g1 (b ++ [h]) fuel (keysOf g1) with
  | error e =>
    rw [hcol] at hrun
    exact Except.noConfusion hrun
  | ok L =>
    rw [hcol] at hrun
    have hg2 : g2 = removeOids g1 L := (Except.ok.inj hrun).symm
    subst hg2
    have hAllOk := collect_ok_all g1 (b ++ [h]) fuel (keysOf g1) L hcol
    have hLmem := collect_mem_iff g1 (b ++ [h]) fuel (keysOf g1) L hcol
    rw [hide_commits]
    cases hcol2 : collectHideList (removeOids g1 L) (b ++ [h]) fuel
        (keysOf (removeOids g1 L)) with
    | error e =>
      left
      cases e
      rfl
    | ok L2 =>
      right
      have hL2nil : L2 = [] := by
        cases hL2 : L2 with
        | nil => rfl
        | cons k t =>
          exfalso
          have hkmem : k ∈ L2 := by rw [hL2]; simp
          obtain ⟨hk1, hk2⟩ :=
            (collect_mem_iff _ _ _ _ L2 hcol2 k).mp hkmem
          have hkkey2 : isKey (removeOids g1 L) k = true :=
            isKey_of_mem_keys _ k hk1
          obtain ⟨hkkey1, hkL⟩ := (isKey_removeOids L g1 k).mp hkkey2
          have hkkeys1 : k ∈ keysOf g1 := mem_keys_of_isKey g1 k hkkey1
          obtain ⟨v, hv⟩ := hAllOk k hkkeys1
          cases v with
          | true => exact hkL ((hLmem k).mpr ⟨hkkeys1, hv⟩)
          | false =>
            exact (survive_not_hidden g1 (b ++ [h]) fuel L hAllOk hLmem
              hCC hCN fuel).1 k hkkeys1 hkL hv hk2
      subst hL2nil
      rfl

theorem hide_commits_keeps_unhideable (g : CommitGraph) (b : List Nat)
    (h fuel : Nat) (g2 : CommitGraph) (oid : Nat) (hmem : oid ∈ b ++ [h])
    (hkey : isKey g oid = true)
    (hrun : hide_commits g b h fuel = Except.ok g2) :
    isKey g2 oid = true := by
  rw [hide_commits] at hrun
  cases hcol : collectHideList g (b ++ [h]) fuel (keysOf g) with
  | error e =>
    rw [hcol] at hrun
    exact Except.noConfusion hrun
  | ok L =>
    rw [hcol] at hrun
    have hg2 : g2 = removeOids g L := (Except.ok.inj hrun).symm
    subst hg2
    rw [isKey_removeOids]
    refine ⟨hkey, ?_⟩
    intro hoidL
    have hh := (collect_mem_iff g (b ++ [h]) fuel (keysOf g) L hcol oid).mp hoidL
    exact shouldHide_unh_ne_true g (b ++ [h]) fuel oid hmem hh.2

/-! ## The claims -/

/-- C1: the claim states that `should_hide` on a trunk node not in
`unhideable_oids` is true only if the node is marked not-visible (with
all non-trunk children recursively hideable), so a visible trunk node is
never hidden and a not-visible trunk node with hideable children is
prunable.  The code does the opposite: line 236 of graph.py tests
`node.is_visible` where its own comment (lines 232-235) requires hiding
only a node that is not visible.  This theorem evaluates the embedded
code at the failing input: the visible trunk leaf `1` (outside the
unhideable set `[2]`) is reported hideable and is indeed removed by the
pruner, while the same trunk leaf marked not-visible is never hidden. -/
theorem c1_master_polarity :
    shouldHide masterLeafGraph [2] 3 1 = Except.ok true ∧
    shouldHide masterLeafGraphHidden [2] 3 1 = Except.ok false ∧
    hide_commits masterLeafGraph [] 2 3
      = Except.ok [(2, ⟨⟨2, [1]⟩, none, [], false, true, none⟩)] :=
  ⟨rfl, rfl, rfl⟩

/-- C2 counterexample: in the end-to-end scenario (trunk `M = 0`,
history `M → A → B → C`, `A = 1` and `B = 2` hidden, `C = 3` the feature
tip and HEAD), `make_graph` with pruning keeps `A` as a key and records
`B` as the graph parent of `C`, refuting the claimed key set `{M, C}`
with the parent of `C` absent. -/
theorem c2_counterexample :
    (make_graph scenarioRepo scenarioMb scenarioReplayer 0 true 10).map
      (fun r => (isKey r.2 1, (lookupNode r.2 3).map Node.parent))
      = Except.ok (true, some (some 2)) :=
  rfl

/-- C2 as amended: in that scenario the pruner removes nothing, because
the unhideable tip `C` blocks the recursive hiding of its ancestors `B`
and `A`; `assemble(prune_hidden=true)` returns HEAD `C = 3` and a graph
whose key set is exactly `{M, A, B, C}` (in insertion order
`[0, 3, 2, 1]`), with the parent of `C` present and equal to `B = 2`. -/
theorem c2_amended :
    (make_graph scenarioRepo scenarioMb scenarioReplayer 0 true 10).map
      (fun r => (r.1, keysOf r.2, (lookupNode r.2 3).map Node.parent))
      = Except.ok (3, ([0, 3, 2, 1], some (some 2))) :=
  rfl

/-- C3 counterexample: after building the merge repository (hidden merge
commit `3` with the two in-graph parents `1` and `2`, final graph parent
`2`) and pruning, the surviving node `1` still lists the removed node
`3` among its children while `3` is no longer a key: the claimed
invariant fails for graphs produced by build with subsequent pruning. -/
theorem c3_counterexample :
    (make_graph mergeRepo mergeMb mergeReplayer 0 true 10).map
      (fun r => ((lookupNode r.2 1).map Node.children, isKey r.2 3))
      = Except.ok (some [3, 4], false) :=
  rfl

/-- C3 as amended: for every graph produced by build alone (before any
pruning), every identifier stored in a children set is a key of the
graph, and every node whose parent field is `p` has `p` present with the
node registered in the children set of `p`. -/
theorem c3_build_bidirectional (repo : List Commit) (mbDb : MergeBaseDb)
    (replayer : EventReplayer) (masterOid fuel : Nat) (oids : List Nat)
    (k : Nat) (n : Node)
    (hk : lookupNode (walk_from_commits repo mbDb replayer masterOid fuel oids) k
      = some n) :
    (∀ c ∈ n.children,
      isKey (walk_from_commits repo mbDb replayer masterOid fuel oids) c = true) ∧
    (∀ p, n.parent = some p →
      isKey (walk_from_commits repo mbDb replayer masterOid fuel oids) p = true ∧
      ∃ np, lookupNode (walk_from_commits repo mbDb replayer masterOid fuel oids) p
          = some np ∧ k ∈ np.children) := by
  obtain ⟨hCC, hPL, _, _, _⟩ := build_invariants repo mbDb replayer masterOid fuel oids
  refine ⟨fun c hc => hCC k n hk c hc, fun p hp => ?_⟩
  obtain ⟨np, hnp, hmem⟩ := hPL k n p hk hp
  exact ⟨lookupNode_isSome_of_some _ p np hnp, np, hnp, hmem⟩

/-- Witness for C3: the hypotheses hold at the two-master repository, at
the merge node `10` whose graph parent is `2`; the bidirectional link is
delivered there. -/
theorem c3_build_bidirectional_witness :
    isKey twoMasterGraph 2 = true := by
  have h := (c3_build_bidirectional twoMasterRepo.commits twoMasterMb quietReplayer
    5 10 (quietReplayer.getActiveOids ++ twoMasterRepo.localBranchOids
      ++ [twoMasterRepo.headOid])
    10 ⟨⟨10, [3, 2]⟩, some 2, [], false, true, none⟩ rfl).2 2 rfl
  exact h.1

/-- C4 counterexample: take `B = 0` and `A = 1` where the only parent of
`A` is `B`.  The true merge-base of `A` and `B` is `B` itself, and `A`
is not an ancestor of `B` (nothing is reachable from `B` except
itself), yet `find_path(A, B, B)` returns the path `[A, B]`, not
absent: the claim as stated is false. -/
theorem c4_counterexample :
    isTrueMergeBaseB wrongOrderRepo 3 0 1 0 = true ∧
    reachesB wrongOrderRepo 3 0 1 = false ∧
    find_path_to_merge_base wrongOrderRepo wrongOrderMb 1 0 5
      = some [⟨1, [0]⟩, ⟨0, []⟩] :=
  ⟨rfl, rfl, rfl⟩

/-- C4 as amended: when the target is not reachable from the start by
following parent links (no ancestry path exists), `find_path` returns
absent whatever merge-base the database reports and whatever the fuel;
and in the two-branch example where `A = 1` and `B = 2` share only
`M = 0` (the true merge-base of `A` and `B`), `find_path(A, B, M)` is
absent while `find_path(A, M, M)` is the two-element path `[A, M]`. -/
theorem c4_dead_end :
    (∀ (repo : List Commit) (mbDb : MergeBaseDb) (a b fuel : Nat),
      (∀ p, ¬ IsAncPath repo a b p) →
      find_path_to_merge_base repo mbDb a b fuel = none) ∧
    isTrueMergeBaseB twoBranchRepo 3 0 1 2 = true ∧
    find_path_to_merge_base twoBranchRepo twoBranchMb 1 2 10 = none ∧
    find_path_to_merge_base twoBranchRepo twoBranchMb 1 0 10
      = some [⟨1, [0]⟩, ⟨0, []⟩] :=
  ⟨fun repo mbDb a b fuel hh =>
    find_path_none_of_unreachable repo mbDb a b fuel hh, rfl, rfl, rfl⟩

/-- Witness for C4: the unreachability hypothesis is discharged at a
one-commit repository with a target oid `5` that no commit carries. -/
theorem c4_dead_end_witness :
    find_path_to_merge_base [⟨0, []⟩] (fun _ _ => none) 0 5 3 = none := by
  refine c4_dead_end.1 [⟨0, []⟩] (fun _ _ => none) 0 5 3 ?_
  intro p hp
  obtain ⟨hanch, _, _, hlast⟩ := hp
  rw [Option.map_eq_some'] at hlast
  obtain ⟨e, he, heoid⟩ := hlast
  have hmem : e ∈ p := by
    have h1 : e ∈ p.getLast? := by rw [he]; rfl
    obtain ⟨hne, he2⟩ := List.mem_getLast?_eq_getLast h1
    rw [he2]
    exact List.getLast_mem hne
  have hl := hanch e hmem
  rw [heoid] at hl
  exact Option.noConfusion hl

/-- C5 counterexample: `mergeGraph` is produced by build (hidden merge
commit `3` with two in-graph parents).  The first prune succeeds and
removes `3`, erasing it only from the children of its recorded parent
`2`; the second prune with the same unhideable oids then fails with a
missing-key error (a `KeyError` in Python) when the hidden surviving
node `1` recurses into its stale child reference `3`, instead of
removing no node and changing no field. -/
theorem c5_counterexample :
    (hide_commits mergeGraph [0, 4] 4 6).map
      (fun g2 => hide_commits g2 [0, 4] 4 6)
      = Except.ok (Except.error ()) :=
  rfl

/-- C5 as amended: running prune a second time on a once-pruned build
graph, with the same unhideable oids and recursion budget, either fails
with a missing-key lookup error (possible only when a removed
multi-parent node lingers in the children set of a survivor) or removes
no node and changes no field, returning the graph unchanged. -/
theorem c5_prune_second_run (repo : List Commit) (mbDb : MergeBaseDb)
    (replayer : EventReplayer) (masterOid fuel : Nat) (oids : List Nat)
    (b : List Nat) (h fuel2 : Nat) (g2 : CommitGraph)
    (hrun : hide_commits (walk_from_commits repo mbDb replayer masterOid fuel oids)
      b h fuel2 = Except.ok g2) :
    hide_commits g2 b h fuel2 = Except.error () ∨
      hide_commits g2 b h fuel2 = Except.ok g2 :=
  hide_commits_second_run _ b h fuel2 g2
    (build_invariants repo mbDb replayer masterOid fuel oids).1
    (build_invariants repo mbDb replayer masterOid fuel oids).2.2.1 hrun

/-- Witness for C5: at the end-to-end scenario graph the first prune
returns the graph unchanged, and the second run lands in the no-change
branch of the conclusion. -/
theorem c5_prune_second_run_witness :
    hide_commits scenarioWalkGraph [0, 3] 3 5 = Except.error () ∨
      hide_commits scenarioWalkGraph [0, 3] 3 5 = Except.ok scenarioWalkGraph :=
  c5_prune_second_run scenarioRepo.commits scenarioMb scenarioReplayer 0 10
    (scenarioReplayer.getActiveOids ++ scenarioRepo.localBranchOids
      ++ [scenarioRepo.headOid])
    [0, 3] 3 5 scenarioWalkGraph rfl

/-- C6: for every graph and every identifier among the unhideable oids
(the branch tips together with HEAD), a successful prune never removes
that node, regardless of its recorded visibility and children. -/
theorem c6_unhideable_survives (g : CommitGraph) (b : List Nat)
    (h fuel : Nat) (g2 : CommitGraph) (oid : Nat) (hmem : oid ∈ b ++ [h])
    (hkey : isKey g oid = true)
    (hrun : hide_commits g b h fuel = Except.ok g2) :
    isKey g2 oid = true :=
  hide_commits_keeps_unhideable g b h fuel g2 oid hmem hkey hrun

/-- Witness for C6: the not-visible leaf `7` is a branch tip of
`branchTipGraph` and survives the prune (which leaves the graph
unchanged), even though the pure visibility predicate would hide it. -/
theorem c6_unhideable_survives_witness :
    isKey branchTipGraph 7 = true :=
  c6_unhideable_survives branchTipGraph [7] 8 3 branchTipGraph 7
    (by decide) (by rfl) rfl

/-- C7: build never aborts on missing expected structure.  First, for
every input, an interesting commit present in the object store whose
merge-base with trunk is absent always ends up as a key of the built
graph.  Second, evaluated on `anomalyRepo`: commit `1` (no merge-base)
is added as a standalone single-node component with `is_master` false,
no parent and no children; commit `2` (merge-base `9` reported but no
ancestry path to it) is skipped; and the rest of the graph (`3` and the
trunk `0`) is still built.  The embedded build is a total function, so
neither anomaly propagates a failure. -/
theorem c7_build_never_aborts :
    (∀ (repo : List Commit) (mbDb : MergeBaseDb) (replayer : EventReplayer)
      (masterOid fuel : Nat) (oids : List Nat) (oid : Nat) (c : Commit),
      oid ∈ oids → repoLookup repo oid = some c → mbDb oid masterOid = none →
      isKey (walk_from_commits repo mbDb replayer masterOid fuel oids) oid = true) ∧
    keysOf (walk_from_commits anomalyRepo anomalyMb quietReplayer 0 10 [1, 2, 3])
      = [1, 3, 0] ∧
    lookupNode (walk_from_commits anomalyRepo anomalyMb quietReplayer 0 10 [1, 2, 3]) 1
      = some ⟨⟨1, []⟩, none, [], false, true, none⟩ ∧
    isKey (walk_from_commits anomalyRepo anomalyMb quietReplayer 0 10 [1, 2, 3]) 2
      = false :=
  ⟨fun repo mbDb replayer masterOid fuel oids oid c hmem hl hmb =>
    walk_mbnone_key repo mbDb replayer masterOid fuel oids oid c hmem hl hmb,
   rfl, rfl, rfl⟩

/-- Witness for C7: the universal part is discharged at `anomalyRepo`
for the merge-base-less commit `1`. -/
theorem c7_build_never_aborts_witness :
    isKey (walk_from_commits anomalyRepo anomalyMb quietReplayer 0 10 [1, 2, 3]) 1
      = true :=
  c7_build_never_aborts.1 anomalyRepo anomalyMb quietReplayer 0 10 [1, 2, 3] 1
    ⟨1, []⟩ (by decide) rfl rfl

/-- C8: when the target is reachable from the start by following parent
links (witnessed by an ancestry path `W`) and the merge-base database
reports the true merge-base of the pair, which is then the target
itself, `find_path` returns, for every sufficient recursion budget, an
ordered sequence that begins with the start, ends with the target,
follows parent links at each step, and is a shortest such sequence. -/
theorem c8_find_path_shortest (repo : List Commit) (mbDb : MergeBaseDb)
    (a b : Nat) (W : List Commit) (hW : IsAncPath repo a b W)
    (hmb : mbDb a b = some b) :
    ∃ (F : Nat) (res : List Commit),
      (∀ f, F ≤ f → find_path_to_merge_base repo mbDb a b f = some res) ∧
      IsAncPath repo a b res ∧
      ∀ q, IsAncPath repo a b q → res.length ≤ q.length :=
  find_path_shortest repo mbDb a b W hW hmb

/-- Witness for C8: the hypotheses hold for the two-commit chain where
`0` is the parent of `1`. -/
theorem c8_find_path_shortest_witness :
    ∃ (F : Nat) (res : List Commit),
      (∀ f, F ≤ f →
        find_path_to_merge_base wrongOrderRepo wrongOrderMb 1 0 f = some res) ∧
      IsAncPath wrongOrderRepo 1 0 res ∧
      ∀ q, IsAncPath wrongOrderRepo 1 0 q → res.length ≤ q.length :=
  c8_find_path_shortest wrongOrderRepo wrongOrderMb 1 0 [⟨1, [0]⟩, ⟨0, []⟩]
    ⟨by decide, List.chain'_cons.mpr ⟨by decide, List.chain'_singleton _⟩,
      by decide, by decide⟩
    rfl

/-- C9 counterexample: in the graph built for `twoMasterRepo`, the keys
`3` and `2` are two distinct trunk nodes lying in the same connected
component (they are joined through the merge commit `10`): a component
can contain more than one trunk node, refuting the second half of the
claim. -/
theorem c9_counterexample :
    (lookupNode twoMasterGraph 3).map Node.is_master = some true ∧
    (lookupNode twoMasterGraph 2).map Node.is_master = some true ∧
    (3 : Nat) ≠ 2 ∧
    connectedB twoMasterGraph 5 3 2 = true :=
  ⟨rfl, rfl, by decide, by decide⟩

/-- C9 as amended: in every graph produced by build, no trunk node is
ever assigned a parent link by the linking pass. -/
theorem c9_masters_no_parent (repo : List Commit) (mbDb : MergeBaseDb)
    (replayer : EventReplayer) (masterOid fuel : Nat) (oids : List Nat)
    (k : Nat) (n : Node)
    (hk : lookupNode (walk_from_commits repo mbDb replayer masterOid fuel oids) k
      = some n)
    (hm : n.is_master = true) : n.parent = none :=
  (build_invariants repo mbDb replayer masterOid fuel oids).2.2.2.1 k n hk hm

/-- Witness for C9: the master tip `5` of the two-master repository has
no parent link. -/
theorem c9_masters_no_parent_witness :
    (⟨⟨5, [3]⟩, none, [], true, true, none⟩ : Node).parent = none :=
  c9_masters_no_parent twoMasterRepo.commits twoMasterMb quietReplayer 5 10
    (quietReplayer.getActiveOids ++ twoMasterRepo.localBranchOids
      ++ [twoMasterRepo.headOid])
    5 ⟨⟨5, [3]⟩, none, [], true, true, none⟩ rfl rfl

/-- C10 counterexample: in the graph built for `trunkMergeRepo`, the
trunk merge commit `3` has the two VCS parents `1` and `2`, both keys of
the graph, yet the linking pass (which skips trunk nodes) registers `3`
in neither children set and leaves its parent field absent: the claim,
which quantifies over every commit with two in-graph VCS parents, is
false for trunk merge commits. -/
theorem c10_counterexample :
    lookupNode trunkMergeGraph 3
      = some ⟨⟨3, [1, 2]⟩, none, [6], true, true, none⟩ ∧
    isKey trunkMergeGraph 1 = true ∧
    isKey trunkMergeGraph 2 = true ∧
    (lookupNode trunkMergeGraph 1).map Node.children = some [] ∧
    (lookupNode trunkMergeGraph 2).map Node.children = some [] :=
  ⟨rfl, rfl, rfl, rfl, rfl⟩

/-- C10 as amended: the linking pass skips trunk nodes, so the claimed
behaviour is restricted to non-trunk commits (a trunk merge commit is
linked to no parent at all and joins no children set, as the
counterexample shows): in every graph produced by build, a non-trunk commit with two
distinct VCS parents that are both keys is registered in the children
set of each of them, while its single parent field names just one
in-graph parent; consequently an identifier can sit in the children set
of a node that is not recorded as its parent (delivered concretely by
the witness: `10` is a child of `3` but records `2` as its parent). -/
theorem c10_merge_links (repo : List Commit) (mbDb : MergeBaseDb)
    (replayer : EventReplayer) (masterOid fuel : Nat) (oids : List Nat)
    (x : Nat) (nx : Node) (p1 p2 : Nat)
    (hlx : lookupNode (walk_from_commits repo mbDb replayer masterOid fuel oids) x
      = some nx)
    (hnm : nx.is_master = false)
    (hp1 : p1 ∈ nx.commit.parents) (hp2 : p2 ∈ nx.commit.parents)
    (hk1 : isKey (walk_from_commits repo mbDb replayer masterOid fuel oids) p1 = true)
    (hk2 : isKey (walk_from_commits repo mbDb replayer masterOid fuel oids) p2 = true)
    (hne : p1 ≠ p2) :
    (∃ n1, lookupNode (walk_from_commits repo mbDb replayer masterOid fuel oids) p1
        = some n1 ∧ x ∈ n1.children) ∧
    (∃ n2, lookupNode (walk_from_commits repo mbDb replayer masterOid fuel oids) p2
        = some n2 ∧ x ∈ n2.children) ∧
    (∃ q, q ∈ nx.commit.parents ∧
      isKey (walk_from_commits repo mbDb replayer masterOid fuel oids) q = true ∧
      nx.parent = some q) := by
  obtain ⟨hfresh, hnd⟩ := walk_pre_fresh repo mbDb replayer masterOid fuel oids
  have hlink := linkAll_multi_parent
    (List.foldl (walkOne repo mbDb replayer masterOid fuel) [] oids) hfresh hnd
    x nx hlx hnm
  exact ⟨hlink.1 p1 hp1 hk1, hlink.1 p2 hp2 hk2,
    hlink.2 ⟨p1, hp1, hk1⟩⟩

/-- Witness for C10: in the two-master build graph the merge commit `10`
has the two in-graph parents `3` and `2`; it appears in both children
sets while its parent field records only `2`, so it sits in the children
set of `3`, which is not its recorded parent. -/
theorem c10_merge_links_witness :
    (∃ n1, lookupNode twoMasterGraph 3 = some n1 ∧ 10 ∈ n1.children) ∧
    (∃ n2, lookupNode twoMasterGraph 2 = some n2 ∧ 10 ∈ n2.children) ∧
    (∃ q, q ∈ (⟨10, [3, 2]⟩ : Commit).parents ∧
      isKey twoMasterGraph q = true ∧
      (⟨⟨10, [3, 2]⟩, some 2, [], false, true, none⟩ : Node).parent = some q) :=
  c10_merge_links twoMasterRepo.commits twoMasterMb quietReplayer 5 10
    (quietReplayer.getActiveOids ++ twoMasterRepo.localBranchOids
      ++ [twoMasterRepo.headOid])
    10 ⟨⟨10, [3, 2]⟩, some 2, [], false, true, none⟩ 3 2
    rfl rfl (by decide) (by decide) rfl rfl (by decide)
